import Mathlib

/-!
# Verification development for `autoupdate/mobile.go`

Shallow embedding of the update checker (`doCheckUpdate`), the progress
reporting reader (`passThru.Read`) and the downloader (`UpdateMobile`).

* Go `float64` is embedded as IEEE-754 binary64 with round-to-nearest-even:
  a finite value is the rational it denotes, every arithmetic operation is
  the exact rational operation followed by rounding (`rnd`). The two zeros
  are identified; the only place where their sign could be observed is a
  division by zero, and the divisors of the program are `float64(pt.length)`
  (an integer conversion, never `-0`) and the constant `10`. Each operation
  is rounded on its own (no fused multiply-add).
* Go `int64` is embedded as `ℤ` with explicit wrap-around (`wrapInt64`); Go
  `int` has 64 bits, as on amd64 and arm64.
* Side effects (collaborator calls, log lines, callbacks) are recorded in a
  trace of `Event`s, in program order.
-/

namespace Autoupdate

/-! ## IEEE-754 binary64 arithmetic -/

/-- Nearest integer to `x`, ties to the even integer. -/
def roundHalfEven (x : ℚ) : ℤ :=
  if x - ⌊x⌋ < 1 / 2 then ⌊x⌋
  else if 1 / 2 < x - ⌊x⌋ then ⌊x⌋ + 1
  else if ⌊x⌋ % 2 = 0 then ⌊x⌋ else ⌊x⌋ + 1

/-- Binary logarithm of a natural number, rounded down, by repeated halving;
the first argument bounds the number of halvings. -/
def log2Fuel : ℕ → ℕ → ℕ
  | 0, _ => 0
  | fuel + 1, n => if 2 ≤ n then log2Fuel fuel (n / 2) + 1 else 0

/-- Binary logarithm of a natural number, rounded down. -/
def natLog2 (n : ℕ) : ℕ := log2Fuel n n

/-- For `0 < x`, the exponent `e` with `2 ^ e ≤ x < 2 ^ (e + 1)`. -/
def ilog2 (x : ℚ) : ℤ :=
  let e0 : ℤ := (natLog2 x.num.toNat : ℤ) - (natLog2 x.den : ℤ)
  if (2 : ℚ) ^ e0 ≤ x then e0 else e0 - 1

/-- Exponent of the binade of `x`, clamped at the smallest normal exponent. -/
def binade (x : ℚ) : ℤ := max (ilog2 x) (-1022)

/-- Spacing of binary64 values in the binade of `x` (53 significant bits). -/
def ulp (x : ℚ) : ℚ := (2 : ℚ) ^ (binade x - 52)

/-- Rounding of a positive rational to the binary64 grid. -/
def rndPos (x : ℚ) : ℚ := roundHalfEven (x / ulp x) * ulp x

/-- Round-to-nearest-even onto the binary64 grid, exponent range unbounded above. -/
def rnd (x : ℚ) : ℚ :=
  if x = 0 then 0 else if 0 < x then rndPos x else -rndPos (-x)

/-- Largest finite binary64 value. -/
def maxFinite : ℚ := (2 ^ 53 - 1) * 2 ^ 971

/-- A Go `float64` value. -/
inductive F64 where
  | fin (q : ℚ)
  | pinf
  | ninf
  | nan
  deriving DecidableEq

namespace F64

/-- Rounding of an exact result to `float64`, overflowing to an infinity. -/
def ofRat (x : ℚ) : F64 :=
  if maxFinite < rnd x then pinf
  else if rnd x < -maxFinite then ninf
  else fin (rnd x)

/-- Conversion `float64(i)` of an integer. -/
def ofInt (i : ℤ) : F64 := ofRat (i : ℚ)

/-- Float division `x / y`. -/
def div : F64 → F64 → F64
  | nan, _ => nan
  | _, nan => nan
  | fin a, fin b =>
    if b = 0 then (if a = 0 then nan else if 0 < a then pinf else ninf)
    else ofRat (a / b)
  | fin _, pinf => fin 0
  | fin _, ninf => fin 0
  | pinf, fin b => if 0 ≤ b then pinf else ninf
  | ninf, fin b => if 0 ≤ b then ninf else pinf
  | pinf, pinf => nan
  | pinf, ninf => nan
  | ninf, pinf => nan
  | ninf, ninf => nan

/-- Float multiplication `x * y`. -/
def mul : F64 → F64 → F64
  | nan, _ => nan
  | _, nan => nan
  | fin a, fin b => ofRat (a * b)
  | fin a, pinf => if a = 0 then nan else if 0 < a then pinf else ninf
  | fin a, ninf => if a = 0 then nan else if 0 < a then ninf else pinf
  | pinf, fin b => if b = 0 then nan else if 0 < b then pinf else ninf
  | ninf, fin b => if b = 0 then nan else if 0 < b then ninf else pinf
  | pinf, pinf => pinf
  | pinf, ninf => ninf
  | ninf, pinf => ninf
  | ninf, ninf => pinf

/-- Float subtraction `x - y`. -/
def sub : F64 → F64 → F64
  | nan, _ => nan
  | _, nan => nan
  | fin a, fin b => ofRat (a - b)
  | fin _, pinf => ninf
  | fin _, ninf => pinf
  | pinf, fin _ => pinf
  | ninf, fin _ => ninf
  | pinf, pinf => nan
  | pinf, ninf => pinf
  | ninf, pinf => ninf
  | ninf, ninf => nan

/-- Float comparison `x > y` (false as soon as one side is NaN). -/
def gt : F64 → F64 → Bool
  | fin a, fin b => decide (b < a)
  | pinf, fin _ => true
  | pinf, ninf => true
  | fin _, ninf => true
  | _, _ => false

/-- Truncation of a rational toward zero. -/
def truncQ (q : ℚ) : ℤ := if 0 ≤ q then ⌊q⌋ else ⌈q⌉

/-- Conversion `int(x)` (64-bit `int`): truncation toward zero. When the
truncated value is not representable, or `x` is an infinity or NaN, Go leaves
the result to the implementation; `cvt` is that implementation's choice. -/
def toInt (cvt : F64 → ℤ) : F64 → ℤ
  | fin q => if -(2 ^ 63) ≤ truncQ q ∧ truncQ q < 2 ^ 63 then truncQ q else cvt (fin q)
  | x => cvt x

end F64

/-- Out-of-range `float64 → int` conversion on amd64 (`CVTTSD2SQ`): the
"integer indefinite" value. -/
def amd64Cvt : F64 → ℤ := fun _ => -(2 ^ 63)

/-- Out-of-range `float64 → int` conversion on arm64 (`FCVTZS`): saturating,
NaN to zero. -/
def arm64Cvt : F64 → ℤ
  | F64.nan => 0
  | F64.ninf => -(2 ^ 63)
  | F64.pinf => 2 ^ 63 - 1
  | F64.fin q => if q < 0 then -(2 ^ 63) else 2 ^ 63 - 1

/-- Two's complement wrap-around of `int64` arithmetic. -/
def wrapInt64 (x : ℤ) : ℤ := (x + 2 ^ 63) % 2 ^ 64 - 2 ^ 63

/-! ## Errors, collaborators and the event trace -/

/-- A Go `error` value: `io.EOF` or any other error, identified by its message. -/
inductive GoError where
  | EOF
  | other (msg : String)
  deriving DecidableEq

/-- The text of an error, `err.Error()`. -/
def GoError.Error : GoError → String
  | GoError.EOF => "EOF"
  | GoError.other msg => msg

/-- The `*http.Client` handed out by `proxied.GetHTTPClient`. -/
structure HttpClient where
  id : ℕ
  deriving DecidableEq

/-- Modelled from the spec: the declaration of `semver.Version` is not part of
the sources. "An ordered semantic-version value (major.minor.patch plus
optional pre-release/build metadata)". -/
structure Version where
  Major : ℕ
  Minor : ℕ
  Patch : ℕ
  Pre : List String
  Build : List String
  deriving DecidableEq

/-- Modelled from the spec: the declaration of the manifest returned by
`checkUpdate` is not part of the sources. "UpdateManifest:
`{version: Version, url: string}`"; the fields read by `doCheckUpdate` are
`res.Version` and `res.Url`. -/
structure Result where
  Version : Version
  Url : String
  deriving DecidableEq

/-- One result `(n, err)` of a call of `Read` on an `io.Reader`. The byte
count is a natural number: `0 <= n <= len(p)` is the contract of `io.Reader`. -/
abbrev ReadResult := ℕ × Option GoError

/-- The stages of `UpdateMobile`. -/
inductive Stage where
  | fileCreation
  | clientAcquisition
  | requestConstruction
  | requestExecution
  | streamCopy
  deriving DecidableEq

/-- Observable actions, in program order. -/
inductive Event where
  | logDebug (msg : String)
  | logError (msg : String)
  | GetHTTPClient (shouldProxy : Bool)
  | SetHttpClient (c : HttpClient)
  | checkUpdate (version URL : String) (publicKey : List ℕ)
  | semverMake (version : String)
  | isNewerVersion (v candidate : Version)
  | ReaderRead
  | ShowProgress (text : String)
  | Stderr (text : String)
  | osCreate (path : String)
  | NewRequest (method url : String)
  | HeaderAdd (key value : String)
  | ClientDo (c : HttpClient) (url : String)
  | ioCopy
  | FileWrite (n : ℕ)
  | handleError (err : GoError)
  | BodyClose
  | FileClose
  deriving DecidableEq

/-- The texts handed to `Updater.ShowProgress`, in call order. -/
def showProgressTexts : List Event → List String
  | [] => []
  | Event.ShowProgress s :: es => s :: showProgressTexts es
  | _ :: es => showProgressTexts es

/-- The texts written to standard error by the coarse indicator, in order. -/
def stderrTexts : List Event → List String
  | [] => []
  | Event.Stderr s :: es => s :: stderrTexts es
  | _ :: es => stderrTexts es

/-- Number of calls of the wrapped reader's `Read`. -/
def readerReadCount (es : List Event) : ℕ := es.count Event.ReaderRead

/-- The errors handed to `handleError`, in call order. -/
def handleErrorCalls : List Event → List GoError
  | [] => []
  | Event.handleError e :: es => e :: handleErrorCalls es
  | _ :: es => handleErrorCalls es

/-- The stage an event starts, if any. -/
def stageOf : Event → Option Stage
  | Event.osCreate _ => some Stage.fileCreation
  | Event.GetHTTPClient _ => some Stage.clientAcquisition
  | Event.NewRequest _ _ => some Stage.requestConstruction
  | Event.ClientDo _ _ => some Stage.requestExecution
  | Event.ioCopy => some Stage.streamCopy
  | _ => none

/-- The stages executed by a trace, in order. -/
def stagesRun (es : List Event) : List Stage := es.filterMap stageOf

/-! ## `passThru` -/

/-- The `passThru` reader. The wrapped `io.Reader` is the list of results its
remaining `Read` calls will return (after the list, `(0, io.EOF)`); the
embedded `Updater` is the event trace. -/
structure passThru where
  Reader : List ReadResult
  total : ℤ
  length : ℤ
  progress : F64

/-- One call `pt.Reader.Read(p)` of the wrapped reader. -/
def Reader.Read : List ReadResult → ReadResult × List ReadResult
  | [] => ((0, some GoError.EOF), [])
  | r :: rs => (r, rs)

/-- Line 42: `float64(pt.total) / float64(pt.length) * float64(100)`. -/
def percentage (total length : ℤ) : F64 :=
  F64.mul (F64.div (F64.ofInt total) (F64.ofInt length)) (F64.ofInt 100)

/-- The integer `int(percentage)` formatted with `%d` on line 45. -/
def percentInt (cvt : F64 → ℤ) (total length : ℤ) : ℤ :=
  F64.toInt cvt (percentage total length)

/-- Line 47: the guard `percentage - pt.progress > 2` of the coarse indicator. -/
def indicatorFires (pct progress : F64) : Bool :=
  F64.gt (F64.sub pct progress) (F64.ofInt 2)

/-- The method `(*passThru).Read`. Returns the pair `(n, err)`, the updated
receiver and the events of the call. -/
def passThru.Read (cvt : F64 → ℤ) (pt : passThru) : ReadResult × passThru × List Event :=
  let res := Reader.Read pt.Reader
  let n := res.1.1
  if 0 < n then
    let total := wrapInt64 (pt.total + (n : ℤ))
    let pct := percentage total pt.length
    let i := F64.toInt cvt (F64.div pct (F64.ofInt 10))
    let is := toString i
    let shown := Event.ShowProgress (toString (F64.toInt cvt pct))
    if indicatorFires pct pt.progress then
      (res.1, { Reader := res.2, total := total, length := pt.length, progress := pct },
        [Event.ReaderRead, shown, Event.Stderr is])
    else
      (res.1, { Reader := res.2, total := total, length := pt.length, progress := pt.progress },
        [Event.ReaderRead, shown])
  else
    (res.1, { Reader := res.2, total := pt.total, length := pt.length, progress := pt.progress },
      [Event.ReaderRead])

/-- The first `k` successive calls of `Read`: the results returned, the final
receiver and the events. -/
def readCalls (cvt : F64 → ℤ) : ℕ → passThru → List ReadResult × passThru × List Event
  | 0, pt => ([], pt, [])
  | k + 1, pt =>
    let r1 := passThru.Read cvt pt
    let r2 := readCalls cvt k r1.2.1
    (r1.1 :: r2.1, r2.2.1, r1.2.2 ++ r2.2.2)

/-- Sum of the byte counts of a list of read results. -/
def byteCount (rs : List ReadResult) : ℕ := (rs.map Prod.fst).sum

/-! ## `io.Copy` -/

/-- The error `io.ErrShortWrite`. -/
def ErrShortWrite : GoError := GoError.other "short write"

/-- The error `io.errInvalidWrite`. -/
def errInvalidWrite : GoError := GoError.other "invalid write result"

/-- One iteration of the loop of Go's `io.Copy` (standard library,
`io.copyBuffer`) reading from a `passThru`: `dst written nr` is the pair
`(nw, ew)` that `dst.Write` returns for a chunk of `nr` bytes when `written`
bytes were written before. The first component is `some err` when the loop
ends with error `err` (`none` for a nil error) and `none` when it goes on;
the others are the bytes written so far, the reader and the events. -/
def copyIter (cvt : F64 → ℤ) (dst : ℕ → ℕ → ℕ × Option GoError) (pt : passThru)
    (written : ℕ) : Option (Option GoError) × ℕ × passThru × List Event :=
  let r := passThru.Read cvt pt
  let nr := r.1.1
  let er := r.1.2
  if 0 < nr then
    let w := dst written nr
    let nw := if nr < w.1 then 0 else w.1
    let ew := if nr < w.1 then (if w.2 = none then some errInvalidWrite else w.2) else w.2
    let ev := r.2.2 ++ [Event.FileWrite nr]
    match ew with
    | some e => (some (some e), written + nw, r.2.1, ev)
    | none =>
      if nr ≠ nw then (some (some ErrShortWrite), written + nw, r.2.1, ev)
      else
        match er with
        | some e => (some (if e = GoError.EOF then none else some e), written + nw, r.2.1, ev)
        | none => (none, written + nw, r.2.1, ev)
  else
    match er with
    | some e => (some (if e = GoError.EOF then none else some e), written, r.2.1, r.2.2)
    | none => (none, written, r.2.1, r.2.2)

/-- The loop of `io.Copy`: `(written, err)`, the final reader and the events.
The first argument bounds the number of iterations. -/
def copyLoop (cvt : F64 → ℤ) (dst : ℕ → ℕ → ℕ × Option GoError) :
    ℕ → passThru → ℕ → (ℕ × Option GoError) × passThru × List Event
  | 0, pt, written => ((written, none), pt, [])
  | fuel + 1, pt, written =>
    let it := copyIter cvt dst pt written
    match it.1 with
    | some err => ((it.2.1, err), it.2.2.1, it.2.2.2)
    | none =>
      let rest := copyLoop cvt dst fuel it.2.2.1 it.2.1
      (rest.1, rest.2.1, it.2.2.2 ++ rest.2.2)

/-- The call `io.Copy(out, readerpt)`. The wrapped reader returns `io.EOF` once
its results are used up, so one iteration more than there are results ends
the loop (`copyLoop_fuel`). -/
def ioCopy (cvt : F64 → ℤ) (dst : ℕ → ℕ → ℕ × Option GoError) (pt : passThru) :
    (ℕ × Option GoError) × passThru × List Event :=
  copyLoop cvt dst (pt.Reader.length + 1) pt 0

/-! ## `doCheckUpdate` -/

/-- Text of a version in a log line. -/
def Version.String (v : Version) : String :=
  toString v.Major ++ "." ++ toString v.Minor ++ "." ++ toString v.Patch

/-- The collaborators of `doCheckUpdate`, none of which is part of the
sources: `proxied.GetHTTPClient`, `checkUpdate` (which uses the client
installed by `update.SetHttpClient`), `semver.Make` and `isNewerVersion`. -/
structure CheckWorld where
  GetHTTPClient : Bool → Except GoError HttpClient
  checkUpdate : HttpClient → String → String → List ℕ → Except GoError Result
  Make : String → Except GoError Version
  isNewerVersion : Version → Version → Bool

/-- The function `doCheckUpdate`: the pair `(url, err)` and the events. -/
def doCheckUpdate (w : CheckWorld) (shouldProxy : Bool) (version URL : String)
    (publicKey : List ℕ) : (String × Option GoError) × List Event :=
  let t0 := [Event.logDebug ("Checking for new mobile version; current version: " ++ version),
    Event.GetHTTPClient shouldProxy]
  match w.GetHTTPClient shouldProxy with
  | Except.error err =>
    (("", some err),
      t0 ++ [Event.logError ("Could not get HTTP client to download update: " ++ err.Error)])
  | Except.ok httpClient =>
    let t1 := t0 ++ [Event.SetHttpClient httpClient, Event.checkUpdate version URL publicKey]
    match w.checkUpdate httpClient version URL publicKey with
    | Except.error err =>
      (("", some err),
        t1 ++ [Event.logError ("Error checking for update for mobile: " ++ err.Error)])
    | Except.ok res =>
      let t2 := t1 ++ [Event.semverMake version]
      match w.Make version with
      | Except.error err =>
        (("", some err),
          t2 ++ [Event.logError
            ("Error checking for update; could not parse version number: " ++ err.Error)])
      | Except.ok v =>
        let t3 := t2 ++ [Event.isNewerVersion v res.Version]
        if w.isNewerVersion v res.Version then
          ((res.Url, none),
            t3 ++ [Event.logDebug
              ("Newer version of Lantern mobile available! " ++ res.Version.String)])
        else
          (("", none), t3 ++ [Event.logDebug "No new version available!"])

/-- The variable `updateStagingServer`. -/
def updateStagingServer : String := "https://update-stage.getlantern.org/update"

/-- The function `CheckMobileUpdate`; the constant `PackagePublicKey` is not
part of the sources and is a parameter. -/
def CheckMobileUpdate (w : CheckWorld) (PackagePublicKey : List ℕ) (shouldProxy : Bool)
    (appVersion : String) : (String × Option GoError) × List Event :=
  doCheckUpdate w shouldProxy appVersion updateStagingServer PackagePublicKey

/-! ## `UpdateMobile` -/

/-- The `*http.Response` as read by `UpdateMobile`: the declared content
length and the results of the `Read` calls of `bzip2.NewReader(res.Body)`. -/
structure Response where
  ContentLength : ℤ
  Body : List ReadResult

/-- The environment of `UpdateMobile`: `os.Create`, `proxied.GetHTTPClient`,
`http.NewRequest`, `httpClient.Do`, the `Write` method of the created file and
the platform's out-of-range float conversion. -/
structure UpdateWorld where
  Create : String → Option GoError
  GetHTTPClient : Bool → Except GoError HttpClient
  NewRequest : String → String → Option GoError
  Do : HttpClient → String → Except GoError Response
  Write : ℕ → ℕ → ℕ × Option GoError
  cvt : F64 → ℤ

/-- The function `handleError`: it logs the error and does not use the updater. -/
def handleError (err : GoError) : List Event :=
  [Event.handleError err, Event.logError err.Error]

/-- The reader built on lines 137-138: `total` and `progress` have their zero
values, `length` is the declared content length. -/
def newPassThru (res : Response) : passThru :=
  { Reader := res.Body, total := 0, length := res.ContentLength, progress := F64.fin 0 }

/-- The function `UpdateMobile`: the returned string and the events. The
deferred `Close` calls run when the function returns. -/
def UpdateMobile (w : UpdateWorld) (shouldProxy : Bool) (url apkPath : String) :
    String × List Event :=
  let t0 := [Event.logDebug ("Attempting to download APK from " ++ url), Event.osCreate apkPath]
  match w.Create apkPath with
  | some err => ("", t0 ++ handleError err)
  | none =>
    let t1 := t0 ++ [Event.GetHTTPClient shouldProxy]
    match w.GetHTTPClient shouldProxy with
    | Except.error err => ("", t1 ++ handleError err ++ [Event.FileClose])
    | Except.ok httpClient =>
      let t2 := t1 ++ [Event.NewRequest "GET" url]
      match w.NewRequest "GET" url with
      | some err =>
        ("", t2 ++ handleError (GoError.other ("Error downloading update: " ++ err.Error))
          ++ [Event.FileClose])
      | none =>
        let t3 := t2 ++ [Event.HeaderAdd "Accept-Encoding" "gzip", Event.ClientDo httpClient url]
        match w.Do httpClient url with
        | Except.error err =>
          ("", t3 ++ handleError (GoError.other ("Error requesting update: " ++ err.Error))
            ++ [Event.FileClose])
        | Except.ok res =>
          let c := ioCopy w.cvt w.Write (newPassThru res)
          let t4 := t3 ++ [Event.ioCopy] ++ c.2.2
          match c.1.2 with
          | some err =>
            ("", t4 ++ handleError (GoError.other ("Error copying update: " ++ err.Error))
              ++ [Event.BodyClose, Event.FileClose])
          | none => (apkPath, t4 ++ [Event.BodyClose, Event.FileClose])

/-- The stage of `UpdateMobile` that fails first in a given environment, if
one does, read off the outcomes of the stages. -/
def firstFailure (w : UpdateWorld) (shouldProxy : Bool) (url apkPath : String) : Option Stage :=
  if (w.Create apkPath).isSome then some Stage.fileCreation
  else match w.GetHTTPClient shouldProxy with
    | Except.error _ => some Stage.clientAcquisition
    | Except.ok httpClient =>
      if (w.NewRequest "GET" url).isSome then some Stage.requestConstruction
      else match w.Do httpClient url with
        | Except.error _ => some Stage.requestExecution
        | Except.ok res =>
          if (ioCopy w.cvt w.Write (newPassThru res)).1.2.isSome then some Stage.streamCopy
          else none

/-- The stages up to and including a given one, in program order. -/
def stagesUpTo : Stage → List Stage
  | Stage.fileCreation => [Stage.fileCreation]
  | Stage.clientAcquisition => [Stage.fileCreation, Stage.clientAcquisition]
  | Stage.requestConstruction =>
    [Stage.fileCreation, Stage.clientAcquisition, Stage.requestConstruction]
  | Stage.requestExecution =>
    [Stage.fileCreation, Stage.clientAcquisition, Stage.requestConstruction,
      Stage.requestExecution]
  | Stage.streamCopy =>
    [Stage.fileCreation, Stage.clientAcquisition, Stage.requestConstruction,
      Stage.requestExecution, Stage.streamCopy]

/-- The rational value of `percentage total length` when no operation
overflows or divides by zero. -/
def pctQ (total length : ℤ) : ℚ :=
  rnd (rnd (rnd (total : ℚ) / rnd (length : ℚ)) * 100)

/-- The integers whose decimal texts a run of `Read` calls hands to
`ShowProgress`, from the running total `t` and the byte counts returned. -/
def expectedInts (cvt : F64 → ℤ) (length : ℤ) : ℤ → List ℕ → List ℤ
  | _, [] => []
  | t, n :: ns =>
    if 0 < n then percentInt cvt (t + n) length :: expectedInts cvt length (t + n) ns
    else expectedInts cvt length t ns

/-- Invariant of the coarse indicator on a reader of positive length: the
recorded progress is a finite value on the grid of spacing `2 ^ (-51)`,
between 0 and the current percentage, and at most 2 below it. -/
def ProgressInv (pt : passThru) : Prop :=
  ∃ p : ℚ, pt.progress = F64.fin p ∧ 0 ≤ p ∧ p ≤ pctQ pt.total pt.length ∧
    pctQ pt.total pt.length - p ≤ 2 ∧ ∃ m : ℤ, p = (m : ℚ) / 2251799813685248

/-- Modelled from the spec: `isNewerVersion` is not part of the sources. "true
iff `candidate` strictly succeeds `current` under standard semantic-version
precedence (numeric comparison of major, then minor, then patch; pre-release
versions sort below the corresponding normal version; build metadata is
ignored for comparison)". Two pre-release versions of one normal version are
left unordered. Used in the sample environments only. -/
def specIsNewer (current candidate : Version) : Bool :=
  if current.Major ≠ candidate.Major then decide (current.Major < candidate.Major)
  else if current.Minor ≠ candidate.Minor then decide (current.Minor < candidate.Minor)
  else if current.Patch ≠ candidate.Patch then decide (current.Patch < candidate.Patch)
  else (!current.Pre.isEmpty) && candidate.Pre.isEmpty

/-- A sample environment of `doCheckUpdate`: the client provider and the
manifest check have the given outcomes, and the version parser knows the
texts `"1.0.0"` and `"2.0.0"`. -/
def sampleWorld (client : Except GoError HttpClient) (manifest : Except GoError Result) :
    CheckWorld :=
  { GetHTTPClient := fun _ => client
    checkUpdate := fun _ _ _ _ => manifest
    Make := fun s =>
      if s = "1.0.0" then Except.ok { Major := 1, Minor := 0, Patch := 0, Pre := [], Build := [] }
      else if s = "2.0.0" then
        Except.ok { Major := 2, Minor := 0, Patch := 0, Pre := [], Build := [] }
      else Except.error (GoError.other "No Major.Minor.Patch elements found")
    isNewerVersion := specIsNewer }

/-- A manifest announcing version 1.0.1 at the given URL. -/
def manifest101 (url : String) : Result :=
  { Version := { Major := 1, Minor := 0, Patch := 1, Pre := [], Build := [] }, Url := url }



/-- A sample environment of `UpdateMobile`: `os.Create` has the given
outcome, every other stage succeeds, the response declares `contentLength`
bytes and decompresses to the reads `body`, and every write is complete. -/
def sampleUpdateWorld (create : Option GoError) (contentLength : ℤ) (body : List ReadResult) :
    UpdateWorld :=
  { Create := fun _ => create
    GetHTTPClient := fun _ => Except.ok { id := 0 }
    NewRequest := fun _ _ => none
    Do := fun _ _ => Except.ok { ContentLength := contentLength, Body := body }
    Write := fun _ nr => (nr, none)
    cvt := amd64Cvt }

/-! ## Rounding lemmas -/

theorem floor_le_roundHalfEven (x : ℚ) : ⌊x⌋ ≤ roundHalfEven x := by
  unfold roundHalfEven
  split_ifs <;> omega

theorem roundHalfEven_le_floor_succ (x : ℚ) : roundHalfEven x ≤ ⌊x⌋ + 1 := by
  unfold roundHalfEven
  split_ifs <;> omega

theorem roundHalfEven_intCast (k : ℤ) : roundHalfEven (k : ℚ) = k := by
  unfold roundHalfEven
  simp

theorem roundHalfEven_mono {x y : ℚ} (h : x ≤ y) : roundHalfEven x ≤ roundHalfEven y := by
  have hf : ⌊x⌋ ≤ ⌊y⌋ := Int.floor_mono h
  rcases lt_or_eq_of_le hf with hlt | heq
  · calc roundHalfEven x ≤ ⌊x⌋ + 1 := roundHalfEven_le_floor_succ x
      _ ≤ ⌊y⌋ := hlt
      _ ≤ roundHalfEven y := floor_le_roundHalfEven y
  · have hsub : x - ⌊x⌋ ≤ y - ⌊y⌋ := by rw [heq]; linarith
    unfold roundHalfEven
    rw [heq]
    split_ifs <;> first | omega | (exfalso; linarith)

theorem log2Fuel_eq (fuel n : ℕ) (h : n ≤ fuel) : log2Fuel fuel n = Nat.log2 n := by
  induction fuel generalizing n with
  | zero =>
    have : n = 0 := by omega
    subst this
    rw [Nat.log2]
    simp [log2Fuel]
  | succ f ih =>
    rw [Nat.log2]
    simp only [log2Fuel]
    by_cases h2 : 2 ≤ n
    · rw [if_pos h2, if_pos h2, ih (n / 2) (by omega)]
    · rw [if_neg h2, if_neg h2]

theorem natLog2_eq (n : ℕ) : natLog2 n = Nat.log2 n := log2Fuel_eq n n le_rfl

theorem ilog2_spec {x : ℚ} (hx : 0 < x) :
    (2 : ℚ) ^ ilog2 x ≤ x ∧ x < (2 : ℚ) ^ (ilog2 x + 1) := by
  have hnum : 0 < x.num := Rat.num_pos.mpr hx
  have ha0 : x.num.toNat ≠ 0 := by omega
  have hb0 : x.den ≠ 0 := x.den_nz
  have ha1 : 2 ^ Nat.log2 x.num.toNat ≤ x.num.toNat := Nat.log2_self_le ha0
  have ha2 : x.num.toNat < 2 ^ (Nat.log2 x.num.toNat + 1) := Nat.lt_log2_self
  have hb1 : 2 ^ Nat.log2 x.den ≤ x.den := Nat.log2_self_le hb0
  have hb2 : x.den < 2 ^ (Nat.log2 x.den + 1) := Nat.lt_log2_self
  have hxe : x = (x.num.toNat : ℚ) / (x.den : ℚ) := by
    have h1 : ((x.num.toNat : ℤ) : ℚ) = (x.num : ℚ) := by
      rw [Int.toNat_of_nonneg hnum.le]
    have h2 : ((x.num.toNat : ℤ) : ℚ) = (x.num.toNat : ℚ) := by push_cast; rfl
    rw [← h2, h1]
    exact (Rat.num_div_den x).symm
  have hbpos : (0 : ℚ) < (x.den : ℚ) := by exact_mod_cast Nat.pos_of_ne_zero hb0
  have ha1q : (2 : ℚ) ^ (Nat.log2 x.num.toNat : ℤ) ≤ (x.num.toNat : ℚ) := by
    rw [zpow_natCast]; exact_mod_cast ha1
  have ha2q : (x.num.toNat : ℚ) < (2 : ℚ) ^ ((Nat.log2 x.num.toNat : ℤ) + 1) := by
    have : ((Nat.log2 x.num.toNat : ℤ) + 1) = ((Nat.log2 x.num.toNat + 1 : ℕ) : ℤ) := by
      push_cast; rfl
    rw [this, zpow_natCast]; exact_mod_cast ha2
  have hb1q : (2 : ℚ) ^ (Nat.log2 x.den : ℤ) ≤ (x.den : ℚ) := by
    rw [zpow_natCast]; exact_mod_cast hb1
  have hb2q : (x.den : ℚ) < (2 : ℚ) ^ ((Nat.log2 x.den : ℤ) + 1) := by
    have : ((Nat.log2 x.den : ℤ) + 1) = ((Nat.log2 x.den + 1 : ℕ) : ℤ) := by push_cast; rfl
    rw [this, zpow_natCast]; exact_mod_cast hb2
  have h2 : (2 : ℚ) ≠ 0 := by norm_num
  have hupper : x < (2 : ℚ) ^ ((Nat.log2 x.num.toNat : ℤ) - Nat.log2 x.den + 1) := by
    rw [hxe, div_lt_iff₀ hbpos, ← hxe]
    calc (x.num.toNat : ℚ) < (2 : ℚ) ^ ((Nat.log2 x.num.toNat : ℤ) + 1) := ha2q
      _ = (2 : ℚ) ^ ((Nat.log2 x.num.toNat : ℤ) - Nat.log2 x.den + 1)
            * (2 : ℚ) ^ (Nat.log2 x.den : ℤ) := by
          rw [← zpow_add₀ h2]; congr 1; ring
      _ ≤ (2 : ℚ) ^ ((Nat.log2 x.num.toNat : ℤ) - Nat.log2 x.den + 1) * (x.den : ℚ) := by
          apply mul_le_mul_of_nonneg_left hb1q; positivity
  have hlower : (2 : ℚ) ^ ((Nat.log2 x.num.toNat : ℤ) - Nat.log2 x.den - 1) ≤ x := by
    rw [hxe, le_div_iff₀ hbpos, ← hxe]
    calc (2 : ℚ) ^ ((Nat.log2 x.num.toNat : ℤ) - Nat.log2 x.den - 1) * (x.den : ℚ)
        ≤ (2 : ℚ) ^ ((Nat.log2 x.num.toNat : ℤ) - Nat.log2 x.den - 1)
            * (2 : ℚ) ^ ((Nat.log2 x.den : ℤ) + 1) := by
          apply mul_le_mul_of_nonneg_left hb2q.le; positivity
      _ = (2 : ℚ) ^ (Nat.log2 x.num.toNat : ℤ) := by
          rw [← zpow_add₀ h2]; congr 1; ring
      _ ≤ (x.num.toNat : ℚ) := ha1q
  unfold ilog2
  simp only [natLog2_eq]
  split_ifs with hc
  · exact ⟨hc, hupper⟩
  · refine ⟨hlower, ?_⟩
    rw [sub_add_cancel]
    exact lt_of_not_le hc

theorem ilog2_mono {x y : ℚ} (hx : 0 < x) (h : x ≤ y) : ilog2 x ≤ ilog2 y := by
  by_contra hlt
  push_neg at hlt
  have hy : 0 < y := lt_of_lt_of_le hx h
  have h1 := (ilog2_spec hy).2
  have h2 := (ilog2_spec hx).1
  have h3 : (2 : ℚ) ^ (ilog2 y + 1) ≤ (2 : ℚ) ^ ilog2 x :=
    zpow_le_zpow_right₀ (by norm_num) (by omega)
  linarith

theorem binade_mono {x y : ℚ} (hx : 0 < x) (h : x ≤ y) : binade x ≤ binade y := by
  unfold binade
  exact max_le_max (ilog2_mono hx h) le_rfl

theorem ulp_pos (x : ℚ) : 0 < ulp x := by
  unfold ulp
  positivity

theorem lt_top_binade {x : ℚ} (hx : 0 < x) : x < (2 : ℚ) ^ (binade x + 1) := by
  have h1 := (ilog2_spec hx).2
  have h2 : (2 : ℚ) ^ (ilog2 x + 1) ≤ (2 : ℚ) ^ (binade x + 1) := by
    apply zpow_le_zpow_right₀ (by norm_num)
    unfold binade
    have := le_max_left (ilog2 x) (-1022)
    omega
  linarith

theorem two_zpow_split (b : ℤ) :
    (2 : ℚ) ^ (b + 1) = ((2 : ℤ) ^ (53 : ℕ) : ℤ) * (2 : ℚ) ^ (b - 52) := by
  have h2 : (2 : ℚ) ≠ 0 := by norm_num
  have : (((2 : ℤ) ^ (53 : ℕ) : ℤ) : ℚ) = (2 : ℚ) ^ (53 : ℤ) := by norm_num
  rw [this, ← zpow_add₀ h2]
  congr 1
  ring

theorem rndPos_le_top {x : ℚ} (hx : 0 < x) : rndPos x ≤ (2 : ℚ) ^ (binade x + 1) := by
  have hu := ulp_pos x
  have h1 : x / ulp x ≤ (((2 : ℤ) ^ (53 : ℕ) : ℤ) : ℚ) := by
    rw [div_le_iff₀ hu]
    have := lt_top_binade hx
    rw [two_zpow_split (binade x)] at this
    exact this.le
  have h2 := roundHalfEven_mono h1
  rw [roundHalfEven_intCast] at h2
  unfold rndPos
  rw [two_zpow_split (binade x)]
  apply mul_le_mul_of_nonneg_right _ hu.le
  exact_mod_cast h2

theorem rndPos_nonneg {x : ℚ} (hx : 0 < x) : 0 ≤ rndPos x := by
  have hu := ulp_pos x
  unfold rndPos
  apply mul_nonneg _ hu.le
  have h1 : (0 : ℤ) ≤ ⌊x / ulp x⌋ := Int.floor_nonneg.mpr (div_nonneg hx.le hu.le)
  have h2 := floor_le_roundHalfEven (x / ulp x)
  exact_mod_cast le_trans h1 h2

theorem rndPos_ge_bot {x : ℚ} (hx : 0 < x) (hn : binade x = ilog2 x) :
    (2 : ℚ) ^ binade x ≤ rndPos x := by
  have hu := ulp_pos x
  have h2ne : (2 : ℚ) ≠ 0 := by norm_num
  have hsplit : (2 : ℚ) ^ binade x = (((2 : ℤ) ^ (52 : ℕ) : ℤ) : ℚ) * ulp x := by
    have : (((2 : ℤ) ^ (52 : ℕ) : ℤ) : ℚ) = (2 : ℚ) ^ (52 : ℤ) := by norm_num
    unfold ulp
    rw [this, ← zpow_add₀ h2ne]
    congr 1
    ring
  have h1 : (((2 : ℤ) ^ (52 : ℕ) : ℤ) : ℚ) ≤ x / ulp x := by
    rw [le_div_iff₀ hu, ← hsplit, hn]
    exact (ilog2_spec hx).1
  have h2 := roundHalfEven_mono h1
  rw [roundHalfEven_intCast] at h2
  rw [hsplit]
  unfold rndPos
  apply mul_le_mul_of_nonneg_right _ hu.le
  exact_mod_cast h2

theorem rndPos_mono {x y : ℚ} (hx : 0 < x) (h : x ≤ y) : rndPos x ≤ rndPos y := by
  have hy : 0 < y := lt_of_lt_of_le hx h
  rcases lt_or_eq_of_le (binade_mono hx h) with hlt | heq
  · have hny : binade y = ilog2 y := by
      have hb : -1022 ≤ binade x := by unfold binade; exact le_max_right _ _
      unfold binade at hlt ⊢
      rcases max_cases (ilog2 y) (-1022) with ⟨h1, _⟩ | ⟨h1, _⟩
      · exact h1
      · rw [h1] at hlt
        unfold binade at hb
        omega
    calc rndPos x ≤ (2 : ℚ) ^ (binade x + 1) := rndPos_le_top hx
      _ ≤ (2 : ℚ) ^ binade y := zpow_le_zpow_right₀ (by norm_num) (by omega)
      _ ≤ rndPos y := rndPos_ge_bot hy hny
  · have hu : ulp x = ulp y := by unfold ulp; rw [heq]
    have hux := ulp_pos x
    unfold rndPos
    rw [← hu]
    apply mul_le_mul_of_nonneg_right _ hux.le
    have : x / ulp x ≤ y / ulp x := div_le_div_of_nonneg_right h hux.le
    exact_mod_cast roundHalfEven_mono this

theorem rnd_nonneg {x : ℚ} (hx : 0 ≤ x) : 0 ≤ rnd x := by
  unfold rnd
  split_ifs with h0 h1
  · exact le_rfl
  · exact rndPos_nonneg h1
  · exact absurd (lt_of_le_of_ne hx (Ne.symm h0)) h1

theorem rnd_nonpos {x : ℚ} (hx : x ≤ 0) : rnd x ≤ 0 := by
  unfold rnd
  split_ifs with h0 h1
  · exact le_rfl
  · linarith
  · have : 0 < -x := by
      have := lt_of_le_of_ne hx h0
      linarith
    have := rndPos_nonneg this
    linarith

theorem rnd_mono {x y : ℚ} (h : x ≤ y) : rnd x ≤ rnd y := by
  rcases lt_trichotomy x 0 with hx | hx | hx
  · rcases lt_or_le y 0 with hy | hy
    · have h1 : rnd x = -rndPos (-x) := by
        unfold rnd; rw [if_neg hx.ne, if_neg (not_lt.mpr hx.le)]
      have h2 : rnd y = -rndPos (-y) := by
        unfold rnd; rw [if_neg hy.ne, if_neg (not_lt.mpr hy.le)]
      rw [h1, h2]
      have : rndPos (-y) ≤ rndPos (-x) := rndPos_mono (by linarith) (by linarith)
      linarith
    · exact le_trans (rnd_nonpos hx.le) (rnd_nonneg hy)
  · rw [hx] at h ⊢
    have : rnd 0 = 0 := by unfold rnd; simp
    rw [this]
    exact rnd_nonneg h
  · have hy : 0 < y := lt_of_lt_of_le hx h
    have h1 : rnd x = rndPos x := by
      unfold rnd; rw [if_neg hx.ne', if_pos hx]
    have h2 : rnd y = rndPos y := by
      unfold rnd; rw [if_neg hy.ne', if_pos hy]
    rw [h1, h2]
    exact rndPos_mono hx h

theorem rnd_zero : rnd 0 = 0 := by decide!
theorem rnd_one : rnd 1 = 1 := by decide!
theorem rnd_two : rnd 2 = 2 := by decide!
theorem rnd_hundred : rnd 100 = 100 := by decide!

theorem rnd_neg (x : ℚ) : rnd (-x) = -rnd x := by
  rcases lt_trichotomy x 0 with hx | hx | hx
  · have h1 : rnd x = -rndPos (-x) := by
      unfold rnd; rw [if_neg hx.ne, if_neg (not_lt.mpr hx.le)]
    have h2 : rnd (-x) = rndPos (-x) := by
      have : 0 < -x := by linarith
      unfold rnd; rw [if_neg this.ne', if_pos this]
    rw [h1, h2, neg_neg]
  · rw [hx]; simp [rnd_zero]
  · have h1 : rnd x = rndPos x := by
      unfold rnd; rw [if_neg hx.ne', if_pos hx]
    have h2 : rnd (-x) = -rndPos (- -x) := by
      have : -x < 0 := by linarith
      unfold rnd; rw [if_neg this.ne, if_neg (not_lt.mpr this.le)]
    rw [h1, h2, neg_neg]

theorem rnd_big : rnd 1267650600228229401496703205376 = 1267650600228229401496703205376 := by
  decide!

theorem big_le_maxFinite : (1267650600228229401496703205376 : ℚ) ≤ maxFinite := by
  decide!

theorem rnd_two_pow_63 : rnd 9223372036854775808 = 9223372036854775808 := by decide!

theorem rnd_two_pow_56 : rnd 72057594037927936 = 72057594037927936 := by decide!

theorem rnd_pct_bound : rnd 7205759403792793600 = 7205759403792793600 := by decide!

theorem rnd_abs_le {x B : ℚ} (hB : rnd B = B) (h : |x| ≤ B) : |rnd x| ≤ B := by
  rw [abs_le] at h ⊢
  constructor
  · have := rnd_mono h.1
    rw [rnd_neg, hB] at this
    exact this
  · have := rnd_mono h.2
    rw [hB] at this
    exact this

theorem ofRat_fin {x : ℚ} (h : |x| ≤ 1267650600228229401496703205376) :
    F64.ofRat x = F64.fin (rnd x) := by
  have hb := rnd_abs_le rnd_big h
  rw [abs_le] at hb
  have hm := big_le_maxFinite
  unfold F64.ofRat
  rw [if_neg (by linarith), if_neg (by linarith)]

theorem ofInt_hundred : F64.ofInt 100 = F64.fin 100 := by decide!
theorem ofInt_two : F64.ofInt 2 = F64.fin 2 := by decide!

theorem one_le_rnd {x : ℚ} (h : 1 ≤ x) : 1 ≤ rnd x := by
  have := rnd_mono h
  rwa [rnd_one] at this

theorem rnd_le_neg_one {x : ℚ} (h : x ≤ -1) : rnd x ≤ -1 := by
  have := rnd_mono h
  rwa [rnd_neg, rnd_one] at this

/-- The percentage is the finite value `pctQ` as soon as the operands are
64-bit integers and the length is not zero. -/
theorem percentage_eq_fin {t L : ℤ} (ht : |(t : ℚ)| ≤ 9223372036854775808)
    (hL : |(L : ℚ)| ≤ 9223372036854775808) (hL0 : L ≠ 0) :
    percentage t L = F64.fin (pctQ t L) := by
  have hrt : |rnd (t : ℚ)| ≤ 9223372036854775808 := rnd_abs_le rnd_two_pow_63 ht
  have hrL1 : 1 ≤ |rnd (L : ℚ)| := by
    rcases lt_or_gt_of_ne hL0 with hneg | hpos
    · have h1 : (L : ℚ) ≤ -1 := by exact_mod_cast (by omega : L ≤ -1)
      have := rnd_le_neg_one h1
      rw [abs_of_nonpos (by linarith)]
      linarith
    · have h1 : (1 : ℚ) ≤ (L : ℚ) := by exact_mod_cast (by omega : 1 ≤ L)
      have := one_le_rnd h1
      rw [abs_of_nonneg (by linarith)]
      exact this
  have hrL0 : rnd (L : ℚ) ≠ 0 := by
    intro h0
    rw [h0, abs_zero] at hrL1
    linarith
  have hq : |rnd (t : ℚ) / rnd (L : ℚ)| ≤ 9223372036854775808 := by
    rw [abs_div, div_le_iff₀ (by linarith)]
    calc |rnd (t : ℚ)| ≤ 9223372036854775808 := hrt
      _ = 9223372036854775808 * 1 := by ring
      _ ≤ 9223372036854775808 * |rnd (L : ℚ)| := by
          apply mul_le_mul_of_nonneg_left hrL1; norm_num
  have hrq : |rnd (rnd (t : ℚ) / rnd (L : ℚ))| ≤ 9223372036854775808 :=
    rnd_abs_le rnd_two_pow_63 hq
  have hm : |rnd (rnd (t : ℚ) / rnd (L : ℚ)) * 100| ≤ 1267650600228229401496703205376 := by
    rw [abs_mul]
    have : |(100 : ℚ)| = 100 := by norm_num
    rw [this]
    linarith [abs_nonneg (rnd (rnd (t : ℚ) / rnd (L : ℚ)))]
  unfold percentage pctQ F64.ofInt
  rw [ofRat_fin (le_trans ht (by norm_num)), ofRat_fin (le_trans hL (by norm_num))]
  have h100 : F64.ofRat ((100 : ℤ) : ℚ) = F64.fin 100 := ofInt_hundred
  rw [h100]
  simp only [F64.div, if_neg hrL0]
  rw [ofRat_fin (le_trans hq (by norm_num))]
  simp only [F64.mul]
  rw [ofRat_fin hm]

theorem pctQ_mono {t1 t2 L : ℤ} (hL : 0 < L) (h : t1 ≤ t2) : pctQ t1 L ≤ pctQ t2 L := by
  have hrL : 0 < rnd (L : ℚ) := by
    have h1 : (1 : ℚ) ≤ (L : ℚ) := by exact_mod_cast (by omega : 1 ≤ L)
    linarith [one_le_rnd h1]
  have h1 : rnd (t1 : ℚ) ≤ rnd (t2 : ℚ) := rnd_mono (by exact_mod_cast h)
  have h2 : rnd (t1 : ℚ) / rnd (L : ℚ) ≤ rnd (t2 : ℚ) / rnd (L : ℚ) :=
    div_le_div_of_nonneg_right h1 hrL.le
  have h3 := rnd_mono h2
  unfold pctQ
  apply rnd_mono
  linarith

theorem pctQ_self {L : ℤ} (hL : L ≠ 0) : pctQ L L = 100 := by
  have hrL0 : rnd (L : ℚ) ≠ 0 := by
    rcases lt_or_gt_of_ne hL with hneg | hpos
    · have h1 : (L : ℚ) ≤ -1 := by exact_mod_cast (by omega : L ≤ -1)
      have := rnd_le_neg_one h1
      linarith
    · have h1 : (1 : ℚ) ≤ (L : ℚ) := by exact_mod_cast (by omega : 1 ≤ L)
      have := one_le_rnd h1
      linarith
  unfold pctQ
  rw [div_self hrL0, rnd_one, one_mul, rnd_hundred]

theorem pctQ_zero (L : ℤ) : pctQ 0 L = 0 := by
  unfold pctQ
  simp [rnd_zero]

theorem pctQ_nonneg {t L : ℤ} (hL : 0 < L) (ht : 0 ≤ t) : 0 ≤ pctQ t L := by
  have := pctQ_mono hL ht
  rwa [pctQ_zero] at this

theorem pctQ_le_hundred {t L : ℤ} (hL : 0 < L) (ht : t ≤ L) : pctQ t L ≤ 100 := by
  have := pctQ_mono hL ht
  rwa [pctQ_self hL.ne'] at this

theorem pctQ_le_bound {t L : ℤ} (hL : 0 < L) (ht0 : 0 ≤ t) (ht : t ≤ 72057594037927936) :
    pctQ t L ≤ 7205759403792793600 := by
  have hrL : 1 ≤ rnd (L : ℚ) := by
    have h1 : (1 : ℚ) ≤ (L : ℚ) := by exact_mod_cast (by omega : 1 ≤ L)
    exact one_le_rnd h1
  have h0 : 0 ≤ rnd (t : ℚ) := rnd_nonneg (by exact_mod_cast ht0)
  have h1 : rnd (t : ℚ) ≤ 72057594037927936 := by
    have := rnd_mono (show (t : ℚ) ≤ 72057594037927936 by exact_mod_cast ht)
    rwa [rnd_two_pow_56] at this
  have h2 : rnd (t : ℚ) / rnd (L : ℚ) ≤ 72057594037927936 := by
    rw [div_le_iff₀ (by linarith)]
    nlinarith
  have h3 : rnd (rnd (t : ℚ) / rnd (L : ℚ)) ≤ 72057594037927936 := by
    have := rnd_mono h2
    rwa [rnd_two_pow_56] at this
  have h4 : rnd (rnd (t : ℚ) / rnd (L : ℚ)) * 100 ≤ 7205759403792793600 := by linarith
  have := rnd_mono h4
  rw [rnd_pct_bound] at this
  exact this

/-! ## Conversion to integers -/

theorem toInt_fin_of_nonneg (cvt : F64 → ℤ) {q : ℚ} (h0 : 0 ≤ q)
    (h1 : q < 9223372036854775808) : F64.toInt cvt (F64.fin q) = ⌊q⌋ := by
  have hf0 : (0 : ℤ) ≤ ⌊q⌋ := Int.floor_nonneg.mpr h0
  have hf1 : ⌊q⌋ < 9223372036854775808 := by
    rw [Int.floor_lt]
    exact_mod_cast h1
  simp only [F64.toInt, F64.truncQ, if_pos h0]
  rw [if_pos]
  constructor
  · omega
  · norm_num
    exact hf1

theorem toInt_fin_of_nonpos (cvt : F64 → ℤ) {q : ℚ} (h0 : q ≤ 0)
    (h1 : -9223372036854775808 ≤ q) : F64.toInt cvt (F64.fin q) = ⌈q⌉ := by
  have hc0 : ⌈q⌉ ≤ 0 := by
    rw [Int.ceil_le]
    exact_mod_cast h0
  have hc1 : -9223372036854775808 ≤ ⌈q⌉ := by
    have : ((-9223372036854775808 : ℤ) : ℚ) ≤ q := by exact_mod_cast h1
    exact Int.le_ceil_iff.mpr (by
      have h2 : (((-9223372036854775808 : ℤ) : ℚ)) - 1 < q := by linarith
      exact_mod_cast h2)
  rcases eq_or_lt_of_le h0 with hq | hq
  · subst hq
    simp [F64.toInt, F64.truncQ]
  · simp only [F64.toInt, F64.truncQ, if_neg (not_le.mpr hq)]
    rw [if_pos]
    constructor
    · norm_num
      exact hc1
    · omega

theorem wrapInt64_eq {x : ℤ} (h0 : -9223372036854775808 ≤ x) (h1 : x < 9223372036854775808) :
    wrapInt64 x = x := by
  unfold wrapInt64
  norm_num
  omega

/-- In range, `int(percentage)` is the floor of the rational percentage. -/
theorem percentInt_eq_floor (cvt : F64 → ℤ) {t L : ℤ} (hL : 0 < L)
    (hL1 : L < 9223372036854775808) (ht0 : 0 ≤ t) (ht1 : t < 9223372036854775808)
    (hq : pctQ t L < 9223372036854775808) : percentInt cvt t L = ⌊pctQ t L⌋ := by
  have ht : |(t : ℚ)| ≤ 9223372036854775808 := by
    rw [abs_of_nonneg (by exact_mod_cast ht0)]
    exact_mod_cast ht1.le
  have hLa : |(L : ℚ)| ≤ 9223372036854775808 := by
    rw [abs_of_nonneg (by exact_mod_cast hL.le)]
    exact_mod_cast hL1.le
  unfold percentInt
  rw [percentage_eq_fin ht hLa hL.ne']
  exact toInt_fin_of_nonneg cvt (pctQ_nonneg hL ht0) hq

theorem percentInt_self (cvt : F64 → ℤ) {L : ℤ} (hL : 0 < L) (hL1 : L < 9223372036854775808) :
    percentInt cvt L L = 100 := by
  rw [percentInt_eq_floor cvt hL hL1 hL.le hL1 (by rw [pctQ_self hL.ne']; norm_num),
    pctQ_self hL.ne']
  norm_num

theorem percentInt_mono (cvt : F64 → ℤ) {t1 t2 L : ℤ} (hL : 0 < L)
    (hL1 : L < 9223372036854775808) (h0 : 0 ≤ t1) (h : t1 ≤ t2)
    (h2 : t2 ≤ 72057594037927936) : percentInt cvt t1 L ≤ percentInt cvt t2 L := by
  have hb1 := pctQ_le_bound hL h0 (le_trans h h2)
  have hb2 := pctQ_le_bound hL (le_trans h0 h) h2
  rw [percentInt_eq_floor cvt hL hL1 h0 (by omega) (by linarith),
    percentInt_eq_floor cvt hL hL1 (le_trans h0 h) (by omega) (by linarith)]
  exact Int.floor_mono (pctQ_mono hL h)

theorem percentInt_range (cvt : F64 → ℤ) {t L : ℤ} (hL : 0 < L)
    (hL1 : L < 9223372036854775808) (h0 : 0 ≤ t) (h : t ≤ L) :
    0 ≤ percentInt cvt t L ∧ percentInt cvt t L ≤ 100 := by
  have hq := pctQ_le_hundred hL h
  rw [percentInt_eq_floor cvt hL hL1 h0 (by omega) (by linarith)]
  constructor
  · exact Int.floor_nonneg.mpr (pctQ_nonneg hL h0)
  · have := Int.floor_mono hq
    simpa using this

/-! ## One call of `Read` -/

theorem Read_result (cvt : F64 → ℤ) (pt : passThru) :
    (passThru.Read cvt pt).1 = (Reader.Read pt.Reader).1 := by
  unfold passThru.Read
  simp only
  split_ifs <;> rfl

theorem Read_reader (cvt : F64 → ℤ) (pt : passThru) :
    (passThru.Read cvt pt).2.1.Reader = (Reader.Read pt.Reader).2 := by
  unfold passThru.Read
  simp only
  split_ifs <;> rfl

theorem Read_length (cvt : F64 → ℤ) (pt : passThru) :
    (passThru.Read cvt pt).2.1.length = pt.length := by
  unfold passThru.Read
  simp only
  split_ifs <;> rfl

theorem Read_total (cvt : F64 → ℤ) (pt : passThru) :
    (passThru.Read cvt pt).2.1.total =
      if 0 < (passThru.Read cvt pt).1.1
      then wrapInt64 (pt.total + ((passThru.Read cvt pt).1.1 : ℤ)) else pt.total := by
  rw [Read_result]
  unfold passThru.Read
  simp only
  split_ifs <;> rfl

theorem Read_texts (cvt : F64 → ℤ) (pt : passThru) :
    showProgressTexts (passThru.Read cvt pt).2.2 =
      if 0 < (passThru.Read cvt pt).1.1
      then [toString (percentInt cvt (passThru.Read cvt pt).2.1.total pt.length)] else [] := by
  rw [Read_total, Read_result]
  unfold passThru.Read
  simp only
  split_ifs <;> simp [showProgressTexts, percentInt]

theorem Read_readerReadCount (cvt : F64 → ℤ) (pt : passThru) :
    readerReadCount (passThru.Read cvt pt).2.2 = 1 := by
  unfold passThru.Read readerReadCount
  simp only
  split_ifs <;> simp [List.count_cons]

theorem Read_progress (cvt : F64 → ℤ) (pt : passThru) :
    (passThru.Read cvt pt).2.1.progress =
      if 0 < (passThru.Read cvt pt).1.1 ∧
          indicatorFires (percentage (passThru.Read cvt pt).2.1.total pt.length) pt.progress = true
      then percentage (passThru.Read cvt pt).2.1.total pt.length else pt.progress := by
  rw [Read_total, Read_result]
  unfold passThru.Read
  simp only
  split_ifs <;> simp_all

theorem Read_stderr (cvt : F64 → ℤ) (pt : passThru) :
    stderrTexts (passThru.Read cvt pt).2.2 =
      if 0 < (passThru.Read cvt pt).1.1 ∧
          indicatorFires (percentage (passThru.Read cvt pt).2.1.total pt.length) pt.progress = true
      then [toString (F64.toInt cvt
        (F64.div (percentage (passThru.Read cvt pt).2.1.total pt.length) (F64.ofInt 10)))]
      else [] := by
  rw [Read_total, Read_result]
  unfold passThru.Read
  simp only
  split_ifs <;> simp_all [stderrTexts]

/-! ## Runs of `Read` calls -/

theorem byteCount_cons (r : ReadResult) (rs : List ReadResult) :
    byteCount (r :: rs) = r.1 + byteCount rs := by
  simp [byteCount]

theorem readCalls_succ (cvt : F64 → ℤ) (k : ℕ) (pt : passThru) :
    readCalls cvt (k + 1) pt =
      ((passThru.Read cvt pt).1 :: (readCalls cvt k (passThru.Read cvt pt).2.1).1,
        (readCalls cvt k (passThru.Read cvt pt).2.1).2.1,
        (passThru.Read cvt pt).2.2 ++ (readCalls cvt k (passThru.Read cvt pt).2.1).2.2) := rfl

theorem showProgressTexts_append (a b : List Event) :
    showProgressTexts (a ++ b) = showProgressTexts a ++ showProgressTexts b := by
  induction a with
  | nil => rfl
  | cons e es ih =>
    cases e <;> simp [showProgressTexts, ih]

theorem readCalls_length (cvt : F64 → ℤ) (k : ℕ) (pt : passThru) :
    (readCalls cvt k pt).2.1.length = pt.length := by
  induction k generalizing pt with
  | zero => rfl
  | succ k ih => rw [readCalls_succ]; simp only; rw [ih, Read_length]

/-- Without wrap-around the counter is the initial value plus the bytes returned. -/
theorem readCalls_total (cvt : F64 → ℤ) (k : ℕ) (pt : passThru)
    (h0 : -9223372036854775808 ≤ pt.total)
    (h1 : pt.total + (byteCount (readCalls cvt k pt).1 : ℤ) < 9223372036854775808) :
    (readCalls cvt k pt).2.1.total = pt.total + (byteCount (readCalls cvt k pt).1 : ℤ) := by
  induction k generalizing pt with
  | zero => simp [readCalls, byteCount]
  | succ k ih =>
    rw [readCalls_succ] at h1 ⊢
    simp only [byteCount_cons] at h1 ⊢
    push_cast at h1 ⊢
    have ht := Read_total cvt pt
    by_cases hn : 0 < (passThru.Read cvt pt).1.1
    · rw [if_pos hn, wrapInt64_eq (by omega) (by omega)] at ht
      rw [ih _ (by rw [ht]; omega) (by rw [ht]; omega), ht]
      ring
    · rw [if_neg hn] at ht
      have hz : (passThru.Read cvt pt).1.1 = 0 := by omega
      rw [ih _ (by rw [ht]; omega) (by rw [ht]; omega), ht, hz]
      simp

/-- Without wrap-around the texts handed to `ShowProgress` are the decimal
texts of `expectedInts`. -/
theorem readCalls_texts (cvt : F64 → ℤ) (k : ℕ) (pt : passThru)
    (h0 : -9223372036854775808 ≤ pt.total)
    (h1 : pt.total + (byteCount (readCalls cvt k pt).1 : ℤ) < 9223372036854775808) :
    showProgressTexts (readCalls cvt k pt).2.2 =
      (expectedInts cvt pt.length pt.total ((readCalls cvt k pt).1.map Prod.fst)).map toString := by
  induction k generalizing pt with
  | zero => simp [readCalls, showProgressTexts, expectedInts]
  | succ k ih =>
    rw [readCalls_succ] at h1 ⊢
    simp only [byteCount_cons] at h1
    push_cast at h1
    simp only [List.map_cons, showProgressTexts_append, expectedInts]
    have ht := Read_total cvt pt
    have hx := Read_texts cvt pt
    by_cases hn : 0 < (passThru.Read cvt pt).1.1
    · rw [if_pos hn, wrapInt64_eq (by omega) (by omega)] at ht
      rw [if_pos hn] at hx
      rw [if_pos hn, hx, ih _ (by rw [ht]; omega) (by rw [ht]; omega), ht, Read_length]
      simp
    · rw [if_neg hn] at ht
      rw [if_neg hn] at hx
      have hz : (passThru.Read cvt pt).1.1 = 0 := by omega
      rw [if_neg hn, hx, ih _ (by rw [ht]; omega) (by rw [ht]; omega), ht, Read_length]
      simp

theorem expectedInts_mem (cvt : F64 → ℤ) (L : ℤ) (ns : List ℕ) (t x : ℤ)
    (hx : x ∈ expectedInts cvt L t ns) :
    ∃ s : ℤ, t < s ∧ s ≤ t + (ns.sum : ℤ) ∧ x = percentInt cvt s L := by
  induction ns generalizing t with
  | nil => simp [expectedInts] at hx
  | cons n ns ih =>
    simp only [expectedInts] at hx
    by_cases hn : 0 < n
    · rw [if_pos hn] at hx
      rcases List.mem_cons.mp hx with h | h
      · refine ⟨t + n, by omega, ?_, h⟩
        simp only [List.sum_cons]
        omega
      · obtain ⟨s, h1, h2, h3⟩ := ih (t + n) h
        refine ⟨s, by omega, ?_, h3⟩
        simp only [List.sum_cons]
        omega
    · rw [if_neg hn] at hx
      obtain ⟨s, h1, h2, h3⟩ := ih t hx
      refine ⟨s, h1, ?_, h3⟩
      simp only [List.sum_cons]
      omega

theorem expectedInts_sorted (cvt : F64 → ℤ) {L : ℤ} (hL : 0 < L)
    (hL1 : L < 9223372036854775808) (ns : List ℕ) (t : ℤ) (h0 : 0 ≤ t)
    (h1 : t + (ns.sum : ℤ) ≤ 72057594037927936) :
    (expectedInts cvt L t ns).Pairwise (fun a b => a ≤ b) := by
  induction ns generalizing t with
  | nil => simp [expectedInts]
  | cons n ns ih =>
    simp only [List.sum_cons] at h1
    simp only [expectedInts]
    by_cases hn : 0 < n
    · rw [if_pos hn, List.pairwise_cons]
      refine ⟨?_, ih (t + n) (by omega) (by omega)⟩
      intro x hx
      obtain ⟨s, h2, h3, h4⟩ := expectedInts_mem cvt L ns (t + n) x hx
      rw [h4]
      exact percentInt_mono cvt hL hL1 (by omega) h2.le (by omega)
    · rw [if_neg hn]
      exact ih t h0 (by omega)

theorem expectedInts_getLast (cvt : F64 → ℤ) (L : ℤ) (ns : List ℕ) (t : ℤ) :
    (expectedInts cvt L t ns).getLast? =
      if ns.sum = 0 then none else some (percentInt cvt (t + (ns.sum : ℤ)) L) := by
  induction ns generalizing t with
  | nil => simp [expectedInts]
  | cons n ns ih =>
    simp only [expectedInts, List.sum_cons]
    by_cases hn : 0 < n
    · rw [if_pos hn, if_neg (by omega), List.getLast?_cons, ih]
      by_cases hs : ns.sum = 0
      · rw [if_pos hs, hs]
        simp
      · rw [if_neg hs]
        push_cast
        simp [add_assoc]
    · rw [if_neg hn, ih]
      have hz : n = 0 := by omega
      subst hz
      simp

theorem expectedInts_range (cvt : F64 → ℤ) {L : ℤ} (hL : 0 < L)
    (hL1 : L < 9223372036854775808) (ns : List ℕ) (t : ℤ) (h0 : 0 ≤ t)
    (h1 : t + (ns.sum : ℤ) ≤ L) :
    ∀ x ∈ expectedInts cvt L t ns, 0 ≤ x ∧ x ≤ 100 := by
  intro x hx
  obtain ⟨s, h2, h3, h4⟩ := expectedInts_mem cvt L ns t x hx
  rw [h4]
  exact percentInt_range cvt hL hL1 (by omega) (by omega)

/-! ## Unknown or negative lengths -/

theorem ofInt_zero : F64.ofInt 0 = F64.fin 0 := by decide!

theorem ofInt_fin {t : ℤ} (ht : |(t : ℚ)| ≤ 9223372036854775808) :
    F64.ofInt t = F64.fin (rnd (t : ℚ)) := by
  unfold F64.ofInt
  exact ofRat_fin (le_trans ht (by norm_num))

/-- Dividing a positive counter by the length zero gives `+Inf`. -/
theorem percentage_zero_length {t : ℤ} (h0 : 0 < t) (h1 : t < 9223372036854775808) :
    percentage t 0 = F64.pinf := by
  have ht : |(t : ℚ)| ≤ 9223372036854775808 := by
    rw [abs_of_nonneg (by exact_mod_cast h0.le)]
    exact_mod_cast h1.le
  have hr : 1 ≤ rnd (t : ℚ) := one_le_rnd (by exact_mod_cast (by omega : 1 ≤ t))
  unfold percentage
  rw [ofInt_fin ht, ofInt_zero, ofInt_hundred]
  have hne : rnd (t : ℚ) ≠ 0 := by linarith
  have hpos : 0 < rnd (t : ℚ) := by linarith
  simp [F64.div, F64.mul, hne, hpos]

theorem pctQ_neg_length_bounds {t L : ℤ} (hL : L < 0) (ht0 : 0 ≤ t)
    (ht : t ≤ 72057594037927936) :
    -7205759403792793600 ≤ pctQ t L ∧ pctQ t L ≤ 0 := by
  have hrL : rnd (L : ℚ) ≤ -1 :=
    rnd_le_neg_one (by exact_mod_cast (by omega : L ≤ -1))
  have h0 : 0 ≤ rnd (t : ℚ) := rnd_nonneg (by exact_mod_cast ht0)
  have h1 : rnd (t : ℚ) ≤ 72057594037927936 := by
    have := rnd_mono (show (t : ℚ) ≤ 72057594037927936 by exact_mod_cast ht)
    rwa [rnd_two_pow_56] at this
  have hq0 : rnd (t : ℚ) / rnd (L : ℚ) ≤ 0 :=
    div_nonpos_of_nonneg_of_nonpos h0 (by linarith)
  have hq1 : -72057594037927936 ≤ rnd (t : ℚ) / rnd (L : ℚ) := by
    rw [le_div_iff_of_neg (by linarith)]
    nlinarith
  have hr0 : rnd (rnd (t : ℚ) / rnd (L : ℚ)) ≤ 0 := rnd_nonpos hq0
  have hr1 : -72057594037927936 ≤ rnd (rnd (t : ℚ) / rnd (L : ℚ)) := by
    have := rnd_mono hq1
    rwa [rnd_neg, rnd_two_pow_56] at this
  unfold pctQ
  constructor
  · have h4 : -7205759403792793600 ≤ rnd (rnd (t : ℚ) / rnd (L : ℚ)) * 100 := by linarith
    have := rnd_mono h4
    rwa [rnd_neg, rnd_pct_bound] at this
  · exact rnd_nonpos (by linarith)

/-- For a negative length the reported integer is not positive. -/
theorem percentInt_neg_length (cvt : F64 → ℤ) {t L : ℤ} (hL : L < 0)
    (hL1 : -9223372036854775808 ≤ L) (ht0 : 0 ≤ t) (ht : t ≤ 72057594037927936) :
    percentInt cvt t L ≤ 0 := by
  have hta : |(t : ℚ)| ≤ 9223372036854775808 := by
    rw [abs_of_nonneg (by exact_mod_cast ht0)]
    exact_mod_cast (by omega : t ≤ 9223372036854775808)
  have hLa : |(L : ℚ)| ≤ 9223372036854775808 := by
    rw [abs_of_neg (by exact_mod_cast hL)]
    have : (-9223372036854775808 : ℚ) ≤ (L : ℚ) := by exact_mod_cast hL1
    linarith
  obtain ⟨hb1, hb2⟩ := pctQ_neg_length_bounds hL ht0 ht
  unfold percentInt
  rw [percentage_eq_fin hta hLa hL.ne, toInt_fin_of_nonpos cvt hb2 (by linarith)]
  rw [Int.ceil_le]
  exact_mod_cast hb2

theorem expectedInts_sorted_zero (cvt : F64 → ℤ) (ns : List ℕ) (t : ℤ) (h0 : 0 ≤ t)
    (h1 : t + (ns.sum : ℤ) < 9223372036854775808) :
    (expectedInts cvt 0 t ns).Pairwise (fun a b => a ≤ b) := by
  have hall : ∀ x ∈ expectedInts cvt 0 t ns, x = cvt F64.pinf := by
    intro x hx
    obtain ⟨s, h2, h3, h4⟩ := expectedInts_mem cvt 0 ns t x hx
    rw [h4]
    unfold percentInt
    rw [percentage_zero_length (by omega) (by omega)]
    rfl
  apply List.Pairwise.imp_of_mem _ (List.pairwise_of_forall (fun _ _ => trivial))
  intro a b ha hb _
  rw [hall a ha, hall b hb]

/-! ## The coarse indicator -/

theorem rnd_grid_const :
    rnd (4503599627370497 / 2251799813685248) = 4503599627370497 / 2251799813685248 := by
  decide!

theorem two_lt_maxFinite : (2 : ℚ) < maxFinite := by decide!

/-- A rounded value that is at least 2 is a multiple of `2 ^ (-51)`. -/
theorem rndPos_grid {y : ℚ} (hy : 0 < y) (h2 : 2 ≤ rndPos y) :
    ∃ m : ℤ, rndPos y = (m : ℚ) / 2251799813685248 := by
  have h2ne : (2 : ℚ) ≠ 0 := by norm_num
  rcases le_or_lt 1 (binade y) with hb | hb
  · refine ⟨roundHalfEven (y / ulp y) * 2 ^ (binade y - 1).toNat, ?_⟩
    have hu : ulp y = ((2 ^ (binade y - 1).toNat : ℤ) : ℚ) / 2251799813685248 := by
      unfold ulp
      have e1 : binade y - 52 = ((binade y - 1).toNat : ℤ) + (-51) := by
        rw [Int.toNat_of_nonneg (by omega)]; ring
      rw [e1, zpow_add₀ h2ne, zpow_natCast]
      push_cast
      norm_num
      ring
    unfold rndPos
    rw [hu]
    push_cast
    ring
  · have htop := rndPos_le_top hy
    have hle : (2 : ℚ) ^ (binade y + 1) ≤ (2 : ℚ) ^ (1 : ℤ) :=
      zpow_le_zpow_right₀ (by norm_num) (by omega)
    rw [zpow_one] at hle
    refine ⟨4503599627370496, ?_⟩
    have : rndPos y = 2 := le_antisymm (le_trans htop hle) h2
    rw [this]
    norm_num

theorem rnd_grid {y : ℚ} (hy : 0 ≤ y) (h2 : 2 ≤ rnd y) :
    ∃ m : ℤ, rnd y = (m : ℚ) / 2251799813685248 := by
  rcases eq_or_lt_of_le hy with h0 | hpos
  · rw [← h0, rnd_zero] at h2
    norm_num at h2
  · have h1 : rnd y = rndPos y := by
      unfold rnd; rw [if_neg hpos.ne', if_pos hpos]
    rw [h1] at h2 ⊢
    exact rndPos_grid hpos h2

theorem indicatorFires_fin (q p : ℚ) :
    indicatorFires (F64.fin q) (F64.fin p) = F64.gt (F64.ofRat (q - p)) (F64.fin 2) := by
  unfold indicatorFires
  rw [ofInt_two]
  rfl

/-- The indicator fires only if the exact difference exceeds 2. -/
theorem indicatorFires_imp {q p : ℚ} (h : indicatorFires (F64.fin q) (F64.fin p) = true) :
    2 < q - p := by
  by_contra hle
  push_neg at hle
  have hr : rnd (q - p) ≤ 2 := by
    have := rnd_mono hle
    rwa [rnd_two] at this
  have hm := two_lt_maxFinite
  rw [indicatorFires_fin] at h
  unfold F64.ofRat at h
  rw [if_neg (by linarith)] at h
  split_ifs at h with h1
  · simp [F64.gt] at h
  · simp only [F64.gt, decide_eq_true_eq] at h
    linarith

/-- On the grid of spacing `2 ^ (-51)` the rounded difference exceeds 2 as
soon as the exact one does. -/
theorem indicatorFires_of_grid {q p : ℚ} (hq : ∃ m : ℤ, q = (m : ℚ) / 2251799813685248)
    (hp : ∃ m : ℤ, p = (m : ℚ) / 2251799813685248) (h : 2 < q - p) :
    indicatorFires (F64.fin q) (F64.fin p) = true := by
  obtain ⟨m1, h1⟩ := hq
  obtain ⟨m2, h2⟩ := hp
  have hd : q - p = ((m1 - m2 : ℤ) : ℚ) / 2251799813685248 := by
    rw [h1, h2]; push_cast; ring
  have hm : (4503599627370496 : ℤ) < m1 - m2 := by
    rw [hd, lt_div_iff₀ (by norm_num)] at h
    have h3 : ((4503599627370496 : ℤ) : ℚ) < ((m1 - m2 : ℤ) : ℚ) := by
      push_cast at h ⊢
      linarith
    exact_mod_cast h3
  have hc : (4503599627370497 : ℚ) / 2251799813685248 ≤ q - p := by
    rw [hd]
    apply div_le_div_of_nonneg_right _ (by norm_num)
    exact_mod_cast (by omega : (4503599627370497 : ℤ) ≤ m1 - m2)
  have hr : (4503599627370497 : ℚ) / 2251799813685248 ≤ rnd (q - p) := by
    have := rnd_mono hc
    rwa [rnd_grid_const] at this
  have hmf := two_lt_maxFinite
  rw [indicatorFires_fin]
  unfold F64.ofRat
  split_ifs with h3 h4
  · rfl
  · exfalso
    have : (0 : ℚ) < 4503599627370497 / 2251799813685248 := by norm_num
    linarith
  · simp only [F64.gt, decide_eq_true_eq]
    have : (2 : ℚ) < 4503599627370497 / 2251799813685248 := by norm_num
    linarith

theorem pctQ_grid {t L : ℤ} (hL : 0 < L) (ht : 0 ≤ t) (h2 : 2 ≤ pctQ t L) :
    ∃ m : ℤ, pctQ t L = (m : ℚ) / 2251799813685248 := by
  have hrL : 0 < rnd (L : ℚ) := by
    have h1 : (1 : ℚ) ≤ (L : ℚ) := by exact_mod_cast (by omega : 1 ≤ L)
    linarith [one_le_rnd h1]
  have h0 : 0 ≤ rnd (t : ℚ) := rnd_nonneg (by exact_mod_cast ht)
  have h3 : 0 ≤ rnd (rnd (t : ℚ) / rnd (L : ℚ)) := rnd_nonneg (div_nonneg h0 hrL.le)
  unfold pctQ at h2 ⊢
  exact rnd_grid (by linarith) h2

theorem percentage_eq_fin_pos {t L : ℤ} (hL : 0 < L) (hL1 : L < 9223372036854775808)
    (ht0 : 0 ≤ t) (ht1 : t < 9223372036854775808) :
    percentage t L = F64.fin (pctQ t L) := by
  have ht : |(t : ℚ)| ≤ 9223372036854775808 := by
    rw [abs_of_nonneg (by exact_mod_cast ht0)]
    exact_mod_cast ht1.le
  have hLa : |(L : ℚ)| ≤ 9223372036854775808 := by
    rw [abs_of_nonneg (by exact_mod_cast hL.le)]
    exact_mod_cast hL1.le
  exact percentage_eq_fin ht hLa hL.ne'

/-- In a state satisfying the invariant the guard of the indicator is the
exact comparison of the difference with 2. -/
theorem indicatorFires_iff_exact {t L : ℤ} {p : ℚ} (hL : 0 < L) (ht : 0 ≤ t) (hp0 : 0 ≤ p)
    (hp : ∃ m : ℤ, p = (m : ℚ) / 2251799813685248) :
    indicatorFires (F64.fin (pctQ t L)) (F64.fin p) = true ↔ 2 < pctQ t L - p := by
  constructor
  · exact indicatorFires_imp
  · intro h
    exact indicatorFires_of_grid (pctQ_grid hL ht (by linarith)) hp h

theorem Read_inv (cvt : F64 → ℤ) (pt : passThru) (hL : 0 < pt.length)
    (hL1 : pt.length < 9223372036854775808) (ht0 : 0 ≤ pt.total)
    (hsum : pt.total + ((passThru.Read cvt pt).1.1 : ℤ) < 9223372036854775808)
    (hinv : ProgressInv pt) :
    ProgressInv (passThru.Read cvt pt).2.1 ∧ 0 ≤ (passThru.Read cvt pt).2.1.total := by
  obtain ⟨p, hp, hp0, hpq, hd, hg⟩ := hinv
  have htot := Read_total cvt pt
  have hprog := Read_progress cvt pt
  have hlen := Read_length cvt pt
  by_cases hn : 0 < (passThru.Read cvt pt).1.1
  · rw [if_pos hn, wrapInt64_eq (by omega) (by omega)] at htot
    have hpct : percentage (passThru.Read cvt pt).2.1.total pt.length
        = F64.fin (pctQ (passThru.Read cvt pt).2.1.total pt.length) :=
      percentage_eq_fin_pos hL hL1 (by rw [htot]; omega) (by rw [htot]; omega)
    have hmono : pctQ pt.total pt.length ≤ pctQ (passThru.Read cvt pt).2.1.total pt.length :=
      pctQ_mono hL (by rw [htot]; omega)
    have hiff := indicatorFires_iff_exact (t := (passThru.Read cvt pt).2.1.total) hL
      (by rw [htot]; omega) hp0 hg
    refine ⟨?_, by rw [htot]; omega⟩
    by_cases hf : indicatorFires (percentage (passThru.Read cvt pt).2.1.total pt.length)
        pt.progress = true
    · rw [if_pos ⟨hn, hf⟩] at hprog
      rw [hpct, hp] at hf
      have hgt := hiff.mp hf
      have hq0 : 0 ≤ pctQ (passThru.Read cvt pt).2.1.total pt.length := by linarith
      unfold ProgressInv
      rw [hlen]
      refine ⟨pctQ (passThru.Read cvt pt).2.1.total pt.length, ?_, hq0, le_rfl, ?_, ?_⟩
      · rw [hprog, hpct]
      · linarith
      · exact pctQ_grid hL (by rw [htot]; omega) (by linarith)
    · rw [if_neg (fun h => hf h.2)] at hprog
      rw [hpct, hp] at hf
      have hle : ¬ 2 < pctQ (passThru.Read cvt pt).2.1.total pt.length - p :=
        fun h => hf (hiff.mpr h)
      unfold ProgressInv
      rw [hlen]
      refine ⟨p, ?_, hp0, ?_, ?_, hg⟩
      · rw [hprog, hp]
      · linarith
      · linarith
  · rw [if_neg hn] at htot
    rw [if_neg (fun h => hn h.1)] at hprog
    refine ⟨?_, by rw [htot]; exact ht0⟩
    unfold ProgressInv
    rw [hlen, htot]
    exact ⟨p, by rw [hprog, hp], hp0, hpq, hd, hg⟩

theorem readCalls_inv (cvt : F64 → ℤ) (k : ℕ) (pt : passThru) (hL : 0 < pt.length)
    (hL1 : pt.length < 9223372036854775808) (ht0 : 0 ≤ pt.total)
    (hsum : pt.total + (byteCount (readCalls cvt k pt).1 : ℤ) < 9223372036854775808)
    (hinv : ProgressInv pt) :
    ProgressInv (readCalls cvt k pt).2.1 ∧ 0 ≤ (readCalls cvt k pt).2.1.total := by
  induction k generalizing pt with
  | zero => exact ⟨hinv, ht0⟩
  | succ k ih =>
    rw [readCalls_succ] at hsum ⊢
    simp only [byteCount_cons] at hsum
    simp only
    have htot := Read_total cvt pt
    have hstep := Read_inv cvt pt hL hL1 ht0 (by omega) hinv
    have ht1 : (passThru.Read cvt pt).2.1.total = pt.total + ((passThru.Read cvt pt).1.1 : ℤ) := by
      by_cases hn : 0 < (passThru.Read cvt pt).1.1
      · rw [htot, if_pos hn, wrapInt64_eq (by omega) (by omega)]
      · rw [htot, if_neg hn]
        have : (passThru.Read cvt pt).1.1 = 0 := by omega
        rw [this]; simp
    apply ih _ (by rw [Read_length]; exact hL) (by rw [Read_length]; exact hL1) hstep.2
      _ hstep.1
    rw [ht1]
    omega

theorem ProgressInv_init (pt : passThru) (ht : pt.total = 0) (hp : pt.progress = F64.fin 0) :
    ProgressInv pt := by
  refine ⟨0, hp, le_rfl, ?_, ?_, ⟨0, by norm_num⟩⟩
  · rw [ht, pctQ_zero]
  · rw [ht, pctQ_zero]; norm_num

/-! ## `io.Copy` and `UpdateMobile` -/

theorem handleErrorCalls_append (a b : List Event) :
    handleErrorCalls (a ++ b) = handleErrorCalls a ++ handleErrorCalls b := by
  induction a with
  | nil => rfl
  | cons e es ih =>
    cases e <;> simp [handleErrorCalls, ih]

theorem stagesRun_append (a b : List Event) : stagesRun (a ++ b) = stagesRun a ++ stagesRun b := by
  unfold stagesRun
  exact List.filterMap_append a b stageOf

theorem Read_no_handleError (cvt : F64 → ℤ) (pt : passThru) :
    handleErrorCalls (passThru.Read cvt pt).2.2 = [] := by
  unfold passThru.Read
  simp only
  split_ifs <;> rfl

theorem Read_no_stage (cvt : F64 → ℤ) (pt : passThru) :
    stagesRun (passThru.Read cvt pt).2.2 = [] := by
  unfold passThru.Read
  simp only
  split_ifs <;> rfl

theorem Read_reader_length (cvt : F64 → ℤ) (pt : passThru)
    (h : (passThru.Read cvt pt).1.2 = none) :
    (passThru.Read cvt pt).2.1.Reader.length + 1 = pt.Reader.length := by
  rw [Read_result] at h
  rw [Read_reader]
  cases hr : pt.Reader with
  | nil => rw [hr] at h; simp [Reader.Read] at h
  | cons r rs => simp [Reader.Read]

theorem copyIter_events (cvt : F64 → ℤ) (dst : ℕ → ℕ → ℕ × Option GoError) (pt : passThru)
    (written : ℕ) :
    handleErrorCalls (copyIter cvt dst pt written).2.2.2 = [] ∧
      stagesRun (copyIter cvt dst pt written).2.2.2 = [] := by
  have h1 := Read_no_handleError cvt pt
  have h2 := Read_no_stage cvt pt
  unfold copyIter
  simp only
  split_ifs <;> (repeat' split) <;>
    simp only [handleErrorCalls_append, stagesRun_append, h1, h2, List.append_nil,
      List.nil_append, and_self] <;> exact ⟨rfl, rfl⟩

theorem copyIter_reader (cvt : F64 → ℤ) (dst : ℕ → ℕ → ℕ × Option GoError) (pt : passThru)
    (written : ℕ) : (copyIter cvt dst pt written).2.2.1 = (passThru.Read cvt pt).2.1 := by
  unfold copyIter
  simp only
  split_ifs <;> (repeat' split) <;> rfl

theorem copyIter_none (cvt : F64 → ℤ) (dst : ℕ → ℕ → ℕ × Option GoError) (pt : passThru)
    (written : ℕ) (h : (copyIter cvt dst pt written).1 = none) :
    (passThru.Read cvt pt).1.2 = none := by
  unfold copyIter at h
  simp only at h
  split_ifs at h <;> (repeat' split at h) <;> first | assumption | (exact absurd h (by simp))

theorem copyIter_continue (cvt : F64 → ℤ) (dst : ℕ → ℕ → ℕ × Option GoError) (pt : passThru)
    (written : ℕ) (h : (copyIter cvt dst pt written).1 = none) :
    (copyIter cvt dst pt written).2.2.1.Reader.length + 1 = pt.Reader.length := by
  rw [copyIter_reader]
  exact Read_reader_length cvt pt (copyIter_none cvt dst pt written h)

/-- The loop of `io.Copy` neither reports errors nor starts a stage of `UpdateMobile`. -/
theorem copyLoop_events (cvt : F64 → ℤ) (dst : ℕ → ℕ → ℕ × Option GoError) (fuel : ℕ)
    (pt : passThru) (written : ℕ) :
    handleErrorCalls (copyLoop cvt dst fuel pt written).2.2 = [] ∧
      stagesRun (copyLoop cvt dst fuel pt written).2.2 = [] := by
  induction fuel generalizing pt written with
  | zero => exact ⟨rfl, rfl⟩
  | succ f ih =>
    have h := copyIter_events cvt dst pt written
    unfold copyLoop
    simp only
    split
    · exact h
    · simp only [handleErrorCalls_append, stagesRun_append, h.1, h.2, (ih _ _).1, (ih _ _).2,
        List.append_nil, and_self]

/-- Enough iterations give the result of `io.Copy`: with more iterations than
the wrapped reader has results left, the loop ends by itself and its result
does not depend on the bound. -/
theorem copyLoop_fuel (cvt : F64 → ℤ) (dst : ℕ → ℕ → ℕ × Option GoError) (fuel : ℕ)
    (pt : passThru) (written : ℕ) (h : pt.Reader.length < fuel) :
    copyLoop cvt dst fuel pt written = copyLoop cvt dst (pt.Reader.length + 1) pt written := by
  induction fuel generalizing pt written with
  | zero => omega
  | succ f ih =>
    have hlen := copyIter_continue cvt dst pt written
    unfold copyLoop
    simp only
    split
    · rfl
    · rename_i hc
      have hl := hlen hc
      rw [ih _ _ (by omega), ← hl]

/-! ## Claims about `doCheckUpdate` -/

/-- C1, counterexample: a manifest that announces the newer version 1.0.1 with
an empty URL makes `doCheckUpdate` return the empty URL although the
manifest's version is strictly newer than the current version 1.0.0. -/
theorem doCheckUpdate_newer_with_empty_url :
    ¬ ∀ (w : CheckWorld) (shouldProxy : Bool) (version URL : String) (publicKey : List ℕ)
        (c : HttpClient) (res : Result) (v : Version),
      w.GetHTTPClient shouldProxy = Except.ok c →
      w.checkUpdate c version URL publicKey = Except.ok res →
      w.Make version = Except.ok v →
      ((doCheckUpdate w shouldProxy version URL publicKey).1.1 ≠ "" ↔
        w.isNewerVersion v res.Version = true) := by
  intro h
  have h1 := h (sampleWorld (Except.ok { id := 0 }) (Except.ok (manifest101 "")))
    true "1.0.0" updateStagingServer [] { id := 0 } (manifest101 "")
    { Major := 1, Minor := 0, Patch := 0, Pre := [], Build := [] } rfl rfl rfl
  exact absurd (h1.mpr (by decide)) (by decide)

/-- C1, amended: whenever client acquisition, the manifest check and parsing
of the current version all succeed, `doCheckUpdate` returns the manifest's URL
with a nil error when `isNewerVersion(current, manifest.Version)` is true, and
the empty URL with a nil error otherwise; hence the returned URL is non-empty
if and only if the manifest's version is newer and the manifest's URL is
itself non-empty. -/
theorem doCheckUpdate_url_iff_newer (w : CheckWorld) (shouldProxy : Bool)
    (version URL : String) (publicKey : List ℕ) (c : HttpClient) (res : Result) (v : Version)
    (hc : w.GetHTTPClient shouldProxy = Except.ok c)
    (hm : w.checkUpdate c version URL publicKey = Except.ok res)
    (hv : w.Make version = Except.ok v) :
    ((doCheckUpdate w shouldProxy version URL publicKey).1.1 ≠ "" ↔
        (w.isNewerVersion v res.Version = true ∧ res.Url ≠ "")) ∧
      (w.isNewerVersion v res.Version = true →
        (doCheckUpdate w shouldProxy version URL publicKey).1 = (res.Url, none)) ∧
      (w.isNewerVersion v res.Version ≠ true →
        (doCheckUpdate w shouldProxy version URL publicKey).1 = ("", none)) := by
  unfold doCheckUpdate
  simp only [hc, hm, hv]
  by_cases hn : w.isNewerVersion v res.Version = true
  · simp [hn]
  · simp [hn]

/-- Witness of C1 (amended): current version 1.0.0, manifest 1.0.1 with a URL. -/
theorem doCheckUpdate_url_iff_newer_witness :
    (doCheckUpdate
        (sampleWorld (Except.ok { id := 0 }) (Except.ok (manifest101 "https://x/update.apk")))
        true "1.0.0" updateStagingServer []).1 = ("https://x/update.apk", none) :=
  (doCheckUpdate_url_iff_newer
    (sampleWorld (Except.ok { id := 0 }) (Except.ok (manifest101 "https://x/update.apk")))
    true "1.0.0" updateStagingServer [] { id := 0 } (manifest101 "https://x/update.apk")
    { Major := 1, Minor := 0, Patch := 0, Pre := [], Build := [] } rfl rfl
    rfl).2.1 (by decide)

/-- C2, counterexample: with a malformed current version and a failing client
acquisition, `doCheckUpdate` returns the client error, not the error of
parsing the version text. -/
theorem doCheckUpdate_malformed_version_other_error :
    ¬ ∀ (w : CheckWorld) (shouldProxy : Bool) (version URL : String) (publicKey : List ℕ)
        (pe : GoError),
      w.Make version = Except.error pe →
      (doCheckUpdate w shouldProxy version URL publicKey).1.2 = some pe := by
  intro h
  have h1 := h (sampleWorld (Except.error (GoError.other "no client"))
      (Except.ok (manifest101 "https://x/update.apk")))
    true "not-a-version" updateStagingServer []
    (GoError.other "No Major.Minor.Patch elements found") rfl
  exact absurd h1 (by decide)

/-- C2, amended: for every current-version string that is not a valid
semantic version and every outcome of client acquisition and of the manifest
check, `doCheckUpdate` returns the empty URL with a non-nil error, never the
empty URL with a nil error; the error is that of parsing the version text
when client acquisition and the manifest check both succeed, and otherwise
the error of the stage that failed first. -/
theorem doCheckUpdate_malformed_version (w : CheckWorld) (shouldProxy : Bool)
    (version URL : String) (publicKey : List ℕ) (pe : GoError)
    (hv : w.Make version = Except.error pe) :
    (doCheckUpdate w shouldProxy version URL publicKey).1.1 = "" ∧
      (doCheckUpdate w shouldProxy version URL publicKey).1.2 ≠ none ∧
      (∀ c res, w.GetHTTPClient shouldProxy = Except.ok c →
        w.checkUpdate c version URL publicKey = Except.ok res →
        (doCheckUpdate w shouldProxy version URL publicKey).1 = ("", some pe)) ∧
      (∀ e, w.GetHTTPClient shouldProxy = Except.error e →
        (doCheckUpdate w shouldProxy version URL publicKey).1 = ("", some e)) ∧
      (∀ c e, w.GetHTTPClient shouldProxy = Except.ok c →
        w.checkUpdate c version URL publicKey = Except.error e →
        (doCheckUpdate w shouldProxy version URL publicKey).1 = ("", some e)) := by
  refine ⟨?_, ?_, ?_, ?_, ?_⟩
  · unfold doCheckUpdate
    cases hc : w.GetHTTPClient shouldProxy with
    | error e => simp
    | ok c =>
      cases hm : w.checkUpdate c version URL publicKey with
      | error e => simp [hm]
      | ok res => simp [hm, hv]
  · unfold doCheckUpdate
    cases hc : w.GetHTTPClient shouldProxy with
    | error e => simp
    | ok c =>
      cases hm : w.checkUpdate c version URL publicKey with
      | error e => simp [hm]
      | ok res => simp [hm, hv]
  · intro c res hc hm
    simp [doCheckUpdate, hc, hm, hv]
  · intro e hc
    simp [doCheckUpdate, hc]
  · intro c e hc hm
    simp [doCheckUpdate, hc, hm]

/-- Witness of C2 (amended): a malformed version with every other stage
succeeding yields the parse error. -/
theorem doCheckUpdate_malformed_version_witness :
    (doCheckUpdate
        (sampleWorld (Except.ok { id := 0 }) (Except.ok (manifest101 "https://x/update.apk")))
        true "not-a-version" updateStagingServer []).1
      = ("", some (GoError.other "No Major.Minor.Patch elements found")) :=
  (doCheckUpdate_malformed_version
    (sampleWorld (Except.ok { id := 0 }) (Except.ok (manifest101 "https://x/update.apk")))
    true "not-a-version" updateStagingServer []
    (GoError.other "No Major.Minor.Patch elements found") rfl).2.2.1
    { id := 0 } (manifest101 "https://x/update.apk") rfl rfl

/-- C3: for every input, if acquiring the HTTP client fails with error `e`,
`doCheckUpdate` returns the empty URL with exactly `e` and neither installs a
client nor invokes the manifest check; if the manifest check fails with error
`e`, it returns the empty URL with exactly `e`; and whenever the returned
error is non-nil the returned URL is the empty string. -/
theorem doCheckUpdate_errors_verbatim (w : CheckWorld) (shouldProxy : Bool)
    (version URL : String) (publicKey : List ℕ) :
    (∀ e, w.GetHTTPClient shouldProxy = Except.error e →
        (doCheckUpdate w shouldProxy version URL publicKey).1 = ("", some e) ∧
        (∀ a b k, Event.checkUpdate a b k ∉
          (doCheckUpdate w shouldProxy version URL publicKey).2) ∧
        (∀ c, Event.SetHttpClient c ∉
          (doCheckUpdate w shouldProxy version URL publicKey).2)) ∧
      (∀ c e, w.GetHTTPClient shouldProxy = Except.ok c →
        w.checkUpdate c version URL publicKey = Except.error e →
        (doCheckUpdate w shouldProxy version URL publicKey).1 = ("", some e)) ∧
      ((doCheckUpdate w shouldProxy version URL publicKey).1.2 ≠ none →
        (doCheckUpdate w shouldProxy version URL publicKey).1.1 = "") := by
  refine ⟨?_, ?_, ?_⟩
  · intro e hc
    simp [doCheckUpdate, hc]
  · intro c e hc hm
    simp [doCheckUpdate, hc, hm]
  · unfold doCheckUpdate
    cases hc : w.GetHTTPClient shouldProxy with
    | error e => simp
    | ok c =>
      cases hm : w.checkUpdate c version URL publicKey with
      | error e => simp [hm]
      | ok res =>
        cases hv : w.Make version with
        | error e => simp [hm, hv]
        | ok v =>
          by_cases hn : w.isNewerVersion v res.Version = true
          · simp [hm, hv, hn]
          · simp [hm, hv, hn]

/-- Witness of C3: a failing manifest check (network error) is returned
unchanged with the empty URL. -/
theorem doCheckUpdate_errors_verbatim_witness :
    (doCheckUpdate
        (sampleWorld (Except.ok { id := 0 }) (Except.error (GoError.other "network down")))
        true "1.0.0" updateStagingServer []).1 = ("", some (GoError.other "network down")) :=
  (doCheckUpdate_errors_verbatim
    (sampleWorld (Except.ok { id := 0 }) (Except.error (GoError.other "network down")))
    true "1.0.0" updateStagingServer []).2.1 { id := 0 } (GoError.other "network down") rfl rfl

theorem ioCopy_events (cvt : F64 → ℤ) (dst : ℕ → ℕ → ℕ × Option GoError) (pt : passThru) :
    handleErrorCalls (ioCopy cvt dst pt).2.2 = [] ∧ stagesRun (ioCopy cvt dst pt).2.2 = [] :=
  copyLoop_events cvt dst _ pt 0

/-- C4: for every combination of stage outcomes of `UpdateMobile` (file
creation, client acquisition, request construction, request execution, stream
copy): if a stage fails, `UpdateMobile` returns the empty string, `handleError`
is invoked exactly once, and the stages executed are exactly those up to and
including the first failing one (no later stage is executed); a failed file
creation is reported with the error of `os.Create` itself. If every stage
succeeds, `UpdateMobile` returns exactly the destination path it was given,
`handleError` is not invoked, and all five stages are executed. -/
theorem UpdateMobile_reports_failure_once (w : UpdateWorld) (shouldProxy : Bool)
    (url apkPath : String) :
    (∀ s, firstFailure w shouldProxy url apkPath = some s →
        (UpdateMobile w shouldProxy url apkPath).1 = "" ∧
        (handleErrorCalls (UpdateMobile w shouldProxy url apkPath).2).length = 1 ∧
        stagesRun (UpdateMobile w shouldProxy url apkPath).2 = stagesUpTo s) ∧
      (∀ e, w.Create apkPath = some e →
        firstFailure w shouldProxy url apkPath = some Stage.fileCreation ∧
        handleErrorCalls (UpdateMobile w shouldProxy url apkPath).2 = [e]) ∧
      (firstFailure w shouldProxy url apkPath = none →
        (UpdateMobile w shouldProxy url apkPath).1 = apkPath ∧
        handleErrorCalls (UpdateMobile w shouldProxy url apkPath).2 = [] ∧
        stagesRun (UpdateMobile w shouldProxy url apkPath).2 = stagesUpTo Stage.streamCopy) := by
  unfold UpdateMobile firstFailure
  cases h1 : w.Create apkPath with
  | some e1 =>
    simp [handleErrorCalls, handleError, stagesRun, stageOf, stagesUpTo]
  | none =>
    cases h2 : w.GetHTTPClient shouldProxy with
    | error e2 =>
      simp [h2, handleErrorCalls, handleError, stagesRun, stageOf, stagesUpTo]
    | ok c =>
      cases h3 : w.NewRequest "GET" url with
      | some e3 =>
        simp [h3, handleErrorCalls, handleError, stagesRun, stageOf, stagesUpTo]
      | none =>
        cases h4 : w.Do c url with
        | error e4 =>
          simp [h4, handleErrorCalls, handleError, stagesRun, stageOf, stagesUpTo]
        | ok res =>
          have hev := ioCopy_events w.cvt w.Write (newPassThru res)
          have hs : List.filterMap stageOf (ioCopy w.cvt w.Write (newPassThru res)).2.2 = [] :=
            hev.2
          cases h5 : (ioCopy w.cvt w.Write (newPassThru res)).1.2 with
          | some e5 =>
            simp [h4, h5, handleErrorCalls, handleError, stagesRun, stageOf, stagesUpTo,
              handleErrorCalls_append, hev.1, hs, List.filterMap_append]
          | none =>
            simp [h4, h5, handleErrorCalls, stagesRun, stageOf, stagesUpTo,
              handleErrorCalls_append, hev.1, hs, List.filterMap_append]

/-- Witness of C4: an unwritable destination path. `UpdateMobile` returns the
empty string and `handleError` receives exactly the file-creation error. -/
theorem UpdateMobile_reports_failure_once_witness :
    firstFailure (sampleUpdateWorld (some (GoError.other "permission denied")) 100 [])
        true "https://x/update.apk" "/readonly/update.apk" = some Stage.fileCreation ∧
      handleErrorCalls (UpdateMobile
        (sampleUpdateWorld (some (GoError.other "permission denied")) 100 [])
        true "https://x/update.apk" "/readonly/update.apk").2
        = [GoError.other "permission denied"] :=
  (UpdateMobile_reports_failure_once
    (sampleUpdateWorld (some (GoError.other "permission denied")) 100 [])
    true "https://x/update.apk" "/readonly/update.apk").2.1
    (GoError.other "permission denied") rfl

/-! ## Claims about `passThru.Read` -/

/-- C5: for every `L > 0` (an `int64`) and every sequence of `Read` calls on a
reader created with `total = 0` and `length = L` whose returned byte counts
sum to exactly `L`, after the last call `total = L` and the last text handed
to `ShowProgress` is `"100"`. -/
theorem passThru_full_transfer_reports_100 (cvt : F64 → ℤ) (k : ℕ) (pt : passThru) (L : ℤ)
    (hL : 0 < L) (hL1 : L < 2 ^ 63) (ht : pt.total = 0) (hlen : pt.length = L)
    (hsum : (byteCount (readCalls cvt k pt).1 : ℤ) = L) :
    (readCalls cvt k pt).2.1.total = L ∧
      (showProgressTexts (readCalls cvt k pt).2.2).getLast? = some "100" := by
  have hL2 : L < 9223372036854775808 := by norm_num at hL1; exact hL1
  have h0 : -9223372036854775808 ≤ pt.total := by rw [ht]; norm_num
  have h1 : pt.total + (byteCount (readCalls cvt k pt).1 : ℤ) < 9223372036854775808 := by
    rw [ht, hsum]; omega
  constructor
  · rw [readCalls_total cvt k pt h0 h1, ht, hsum]; ring
  · rw [readCalls_texts cvt k pt h0 h1, List.getLast?_map, expectedInts_getLast]
    have hs : ((readCalls cvt k pt).1.map Prod.fst).sum ≠ 0 := by
      intro hz
      unfold byteCount at hsum
      rw [hz] at hsum
      simp at hsum
      omega
    have hs2 : (((readCalls cvt k pt).1.map Prod.fst).sum : ℤ) = L := hsum
    rw [if_neg hs, hs2, ht, hlen, zero_add, percentInt_self cvt hL hL2]
    rfl

/-- Witness of C5: a declared length of 100 bytes delivered as 40 + 60 bytes
and a final end-of-file read. -/
theorem passThru_full_transfer_reports_100_witness :
    (readCalls amd64Cvt 3
        { Reader := [(40, none), (60, none)], total := 0, length := 100,
          progress := F64.fin 0 }).2.1.total = 100 ∧
      (showProgressTexts (readCalls amd64Cvt 3
        { Reader := [(40, none), (60, none)], total := 0, length := 100,
          progress := F64.fin 0 }).2.2).getLast? = some "100" :=
  passThru_full_transfer_reports_100 amd64Cvt 3
    { Reader := [(40, none), (60, none)], total := 0, length := 100, progress := F64.fin 0 }
    100 (by decide) (by decide) rfl rfl (by decide!)

/-- C7, counterexample: with an unknown content length (`length = -1`, as
`net/http` reports it) two reads of one byte each hand `"-100"` and then
`"-200"` to `ShowProgress`: the percentages decrease. -/
theorem passThru_progress_decreases_unknown_length :
    showProgressTexts (readCalls amd64Cvt 2
        { Reader := [(1, none), (1, none)], total := 0, length := -1,
          progress := F64.fin 0 }).2.2
      = ["-100", "-200"] ∧
      ["-100", "-200"] = [toString (-100 : ℤ), toString (-200 : ℤ)] ∧
      ¬ ((-100 : ℤ) ≤ -200) := by
  decide!

/-- C7, amended: for every `passThru` starting with `total = 0` whose length
is not negative, and every sequence of `Read` calls returning at most `2 ^ 56`
bytes in all, the texts handed to `ShowProgress` are, in call order, the
decimal texts of a non-decreasing sequence of integers. -/
theorem passThru_progress_monotone (cvt : F64 → ℤ) (k : ℕ) (pt : passThru)
    (ht : pt.total = 0) (hL : 0 ≤ pt.length) (hL1 : pt.length < 2 ^ 63)
    (hsum : byteCount (readCalls cvt k pt).1 ≤ 2 ^ 56) :
    ∃ ks : List ℤ, showProgressTexts (readCalls cvt k pt).2.2 = ks.map toString ∧
      ks.Pairwise (fun a b => a ≤ b) := by
  have hL2 : pt.length < 9223372036854775808 := by norm_num at hL1; exact hL1
  have hs : ((byteCount (readCalls cvt k pt).1 : ℕ) : ℤ) ≤ 72057594037927936 := by
    norm_num at hsum
    exact_mod_cast hsum
  have h0 : -9223372036854775808 ≤ pt.total := by rw [ht]; norm_num
  have h1 : pt.total + (byteCount (readCalls cvt k pt).1 : ℤ) < 9223372036854775808 := by
    rw [ht]; omega
  refine ⟨expectedInts cvt pt.length pt.total ((readCalls cvt k pt).1.map Prod.fst),
    readCalls_texts cvt k pt h0 h1, ?_⟩
  rcases eq_or_lt_of_le hL with hz | hpos
  · rw [← hz]
    apply expectedInts_sorted_zero cvt _ _ (by rw [ht])
    rw [ht, zero_add]
    unfold byteCount at hs
    omega
  · apply expectedInts_sorted cvt hpos hL2 _ _ (by rw [ht])
    rw [ht, zero_add]
    exact hs

/-- Witness of C7 (amended): 100 declared bytes, 150 bytes read. -/
theorem passThru_progress_monotone_witness :
    ∃ ks : List ℤ, showProgressTexts (readCalls amd64Cvt 3
        { Reader := [(40, none), (60, none), (50, none)], total := 0, length := 100,
          progress := F64.fin 0 }).2.2 = ks.map toString ∧
      ks.Pairwise (fun a b => a ≤ b) :=
  passThru_progress_monotone amd64Cvt 3
    { Reader := [(40, none), (60, none), (50, none)], total := 0, length := 100,
      progress := F64.fin 0 }
    rfl (by decide) (by decide) (by decide!)

/-- C8, counterexample: with a declared length of 1 byte, a read of 2
(decompressed) bytes hands the text of 200 to `ShowProgress`, which is not
between 0 and 100. -/
theorem passThru_percentage_exceeds_100 :
    showProgressTexts (passThru.Read amd64Cvt
        { Reader := [(2, none)], total := 0, length := 1, progress := F64.fin 0 }).2.2
      = ["200"] ∧ "200" = toString (200 : ℤ) ∧ ¬ ((200 : ℤ) ≤ 100) := by
  decide!

/-- C8, amended: every text handed to `ShowProgress` is the decimal text of
`int(float64(total) / float64(length) * 100)`, and for every positive length
and every sequence of `Read` calls from `total = 0` that returns no more
bytes than the length, it is the decimal text of an integer between 0 and 100
inclusive. -/
theorem passThru_percentage_in_range (cvt : F64 → ℤ) (k : ℕ) (pt : passThru)
    (ht : pt.total = 0) (hL : 0 < pt.length) (hL1 : pt.length < 2 ^ 63)
    (hsum : (byteCount (readCalls cvt k pt).1 : ℤ) ≤ pt.length) :
    showProgressTexts (passThru.Read cvt pt).2.2 =
        (if 0 < (passThru.Read cvt pt).1.1
          then [toString (F64.toInt cvt
            (percentage (passThru.Read cvt pt).2.1.total pt.length))] else []) ∧
      ∃ ks : List ℤ, showProgressTexts (readCalls cvt k pt).2.2 = ks.map toString ∧
        ∀ x ∈ ks, 0 ≤ x ∧ x ≤ 100 := by
  have hL2 : pt.length < 9223372036854775808 := by norm_num at hL1; exact hL1
  have h0 : -9223372036854775808 ≤ pt.total := by rw [ht]; norm_num
  have h1 : pt.total + (byteCount (readCalls cvt k pt).1 : ℤ) < 9223372036854775808 := by
    rw [ht]; omega
  refine ⟨Read_texts cvt pt, expectedInts cvt pt.length pt.total
    ((readCalls cvt k pt).1.map Prod.fst), readCalls_texts cvt k pt h0 h1, ?_⟩
  apply expectedInts_range cvt hL hL2 _ _ (by rw [ht])
  rw [ht, zero_add]
  exact hsum

/-- Witness of C8 (amended): 100 declared bytes read as 40 + 60. -/
theorem passThru_percentage_in_range_witness :
    ∃ ks : List ℤ, showProgressTexts (readCalls amd64Cvt 2
        { Reader := [(40, none), (60, none)], total := 0, length := 100,
          progress := F64.fin 0 }).2.2 = ks.map toString ∧
      ∀ x ∈ ks, 0 ≤ x ∧ x ≤ 100 :=
  (passThru_percentage_in_range amd64Cvt 2
    { Reader := [(40, none), (60, none)], total := 0, length := 100, progress := F64.fin 0 }
    rfl (by decide) (by decide) (by decide!)).2

/-- C9: `Read` is a transparent pass-through with exact byte accounting. For
every state it calls the wrapped reader's `Read` once and returns exactly the
pair `(n, err)` of that call, whatever `err` is; `length` is never modified;
when `n > 0` the counter becomes `total + n` in `int64` arithmetic, which is
the sum itself as long as it fits an `int64`, and `ShowProgress` is called
exactly once; when `n = 0` the counter is unchanged and `ShowProgress` is not
called. Hence over any sequence of calls whose byte counts fit an `int64` the
counter does not decrease and is the initial value plus all byte counts
returned so far. -/
theorem passThru_Read_accounting (cvt : F64 → ℤ) (pt : passThru) :
    (passThru.Read cvt pt).1 = (Reader.Read pt.Reader).1 ∧
      (passThru.Read cvt pt).2.1.Reader = (Reader.Read pt.Reader).2 ∧
      readerReadCount (passThru.Read cvt pt).2.2 = 1 ∧
      (passThru.Read cvt pt).2.1.length = pt.length ∧
      (0 < (passThru.Read cvt pt).1.1 →
        (passThru.Read cvt pt).2.1.total
            = wrapInt64 (pt.total + ((passThru.Read cvt pt).1.1 : ℤ)) ∧
          (showProgressTexts (passThru.Read cvt pt).2.2).length = 1) ∧
      (0 < (passThru.Read cvt pt).1.1 →
        -(2 ^ 63) ≤ pt.total → pt.total + ((passThru.Read cvt pt).1.1 : ℤ) < 2 ^ 63 →
        (passThru.Read cvt pt).2.1.total = pt.total + ((passThru.Read cvt pt).1.1 : ℤ)) ∧
      ((passThru.Read cvt pt).1.1 = 0 →
        (passThru.Read cvt pt).2.1.total = pt.total ∧
          showProgressTexts (passThru.Read cvt pt).2.2 = []) ∧
      (∀ k : ℕ, -(2 ^ 63) ≤ pt.total →
        pt.total + (byteCount (readCalls cvt k pt).1 : ℤ) < 2 ^ 63 →
        (readCalls cvt k pt).2.1.total = pt.total + (byteCount (readCalls cvt k pt).1 : ℤ) ∧
          pt.total ≤ (readCalls cvt k pt).2.1.total ∧
          (readCalls cvt k pt).2.1.length = pt.length) := by
  refine ⟨Read_result cvt pt, Read_reader cvt pt, Read_readerReadCount cvt pt,
    Read_length cvt pt, ?_, ?_, ?_, ?_⟩
  · intro hn
    rw [Read_total, Read_texts, if_pos hn, if_pos hn]
    exact ⟨rfl, rfl⟩
  · intro hn h0 h1
    rw [Read_total, if_pos hn]
    norm_num at h0 h1
    exact wrapInt64_eq (by omega) (by omega)
  · intro hn
    rw [Read_total, Read_texts, hn]
    exact ⟨rfl, rfl⟩
  · intro k h0 h1
    norm_num at h0 h1
    have := readCalls_total cvt k pt h0 h1
    refine ⟨this, ?_, readCalls_length cvt k pt⟩
    rw [this]
    omega

/-- Witness of C9: three reads (40 bytes, 60 bytes with an error, then the
end of the stream) on a fresh reader. -/
theorem passThru_Read_accounting_witness :
    (readCalls amd64Cvt 3
        { Reader := [(40, none), (60, some (GoError.other "reset"))], total := 0,
          length := 100, progress := F64.fin 0 }).2.1.total =
      0 + ((byteCount (readCalls amd64Cvt 3
        { Reader := [(40, none), (60, some (GoError.other "reset"))], total := 0,
          length := 100, progress := F64.fin 0 }).1 : ℕ) : ℤ) :=
  ((passThru_Read_accounting amd64Cvt
    { Reader := [(40, none), (60, some (GoError.other "reset"))], total := 0,
      length := 100, progress := F64.fin 0 }).2.2.2.2.2.2.2 3
    (by decide) (by decide!)).1

/-- C6, counterexample: no sentinel is handed to `ShowProgress` when the
length is unknown. With `length = -1` the quotient `float64(1) / float64(-1)`
is computed and a first byte gives `"-100"`, a second byte `"-200"`: the texts
are quotients by the negative length, and no single text serves for all
reads. -/
theorem passThru_no_sentinel_for_unknown_length :
    showProgressTexts (passThru.Read amd64Cvt
        { Reader := [(1, none)], total := 0, length := -1, progress := F64.fin 0 }).2.2
      = ["-100"] ∧
    showProgressTexts (passThru.Read amd64Cvt
        { Reader := [(1, none)], total := 1, length := -1, progress := F64.fin 0 }).2.2
      = ["-200"] ∧
    percentage 1 (-1) = F64.fin (-100) ∧
    ¬ ∃ sentinel : String, ∀ (cvt : F64 → ℤ) (pt : passThru),
      pt.length ≤ 0 → 0 < (passThru.Read cvt pt).1.1 →
      showProgressTexts (passThru.Read cvt pt).2.2 = [sentinel] := by
  have e1 : showProgressTexts (passThru.Read amd64Cvt
      { Reader := [(1, none)], total := 0, length := -1, progress := F64.fin 0 }).2.2
      = ["-100"] := by decide!
  have e2 : showProgressTexts (passThru.Read amd64Cvt
      { Reader := [(1, none)], total := 1, length := -1, progress := F64.fin 0 }).2.2
      = ["-200"] := by decide!
  refine ⟨e1, e2, by decide!, ?_⟩
  rintro ⟨s, hs⟩
  have h1 := hs amd64Cvt
    { Reader := [(1, none)], total := 0, length := -1, progress := F64.fin 0 }
    (by decide) (by decide!)
  have h2 := hs amd64Cvt
    { Reader := [(1, none)], total := 1, length := -1, progress := F64.fin 0 }
    (by decide) (by decide!)
  rw [e1] at h1
  rw [e2] at h2
  have h3 : ["-100"] = ["-200"] := h1.trans h2.symm
  exact absurd h3 (by decide)

/-- C6, amended: for every `passThru` whose length is unknown (`length <= 0`)
and every read that returns `n > 0` bytes, the percentage computation is not
suppressed: `ShowProgress` is still called exactly once, with the decimal text
of `int(float64(total) / float64(length) * 100)`, the same division as for a
known length. For a negative length and a counter of at most `2 ^ 56` bytes
that integer is not positive; for the length 0 the quotient is `+Inf`, whose
conversion to an integer is left to the implementation. -/
theorem passThru_unknown_length_divides (cvt : F64 → ℤ) (pt : passThru)
    (hlen : pt.length ≤ 0) (hn : 0 < (passThru.Read cvt pt).1.1) :
    showProgressTexts (passThru.Read cvt pt).2.2 =
        [toString (F64.toInt cvt (F64.mul
          (F64.div (F64.ofInt (passThru.Read cvt pt).2.1.total) (F64.ofInt pt.length))
          (F64.ofInt 100)))] ∧
      ((pt.length < 0 ∧ (-(2 ^ 63) ≤ pt.length → 0 ≤ pt.total →
          pt.total + ((passThru.Read cvt pt).1.1 : ℤ) ≤ 2 ^ 56 →
          percentInt cvt (passThru.Read cvt pt).2.1.total pt.length ≤ 0)) ∨
        (pt.length = 0 ∧ (0 ≤ pt.total →
          pt.total + ((passThru.Read cvt pt).1.1 : ℤ) < 2 ^ 63 →
          percentage (passThru.Read cvt pt).2.1.total pt.length = F64.pinf ∧
            showProgressTexts (passThru.Read cvt pt).2.2 = [toString (cvt F64.pinf)]))) := by
  have htx := Read_texts cvt pt
  have htot := Read_total cvt pt
  rw [if_pos hn] at htx htot
  refine ⟨htx, ?_⟩
  rcases lt_or_eq_of_le hlen with hneg | hz
  · left
    refine ⟨hneg, ?_⟩
    intro hl1 ht0 hsum
    norm_num at hl1 hsum
    rw [htot, wrapInt64_eq (by omega) (by omega)]
    exact percentInt_neg_length cvt hneg hl1 (by omega) hsum
  · right
    refine ⟨hz, ?_⟩
    intro ht0 hsum
    norm_num at hsum
    have hp : percentage (passThru.Read cvt pt).2.1.total pt.length = F64.pinf := by
      rw [htot, wrapInt64_eq (by omega) (by omega), hz]
      exact percentage_zero_length (by omega) hsum
    refine ⟨hp, ?_⟩
    rw [htx]
    unfold percentInt
    rw [hp]
    rfl

/-- Witness of C6 (amended): unknown length `-1`, first read of one byte. -/
theorem passThru_unknown_length_divides_witness :
    showProgressTexts (passThru.Read amd64Cvt
        { Reader := [(1, none)], total := 0, length := -1, progress := F64.fin 0 }).2.2 =
      [toString (F64.toInt amd64Cvt (F64.mul
        (F64.div (F64.ofInt (passThru.Read amd64Cvt
          { Reader := [(1, none)], total := 0, length := -1,
            progress := F64.fin 0 }).2.1.total) (F64.ofInt (-1)))
        (F64.ofInt 100)))] :=
  (passThru_unknown_length_divides amd64Cvt
    { Reader := [(1, none)], total := 0, length := -1, progress := F64.fin 0 }
    (by decide) (by decide!)).1

/-- C10: for every `Read` call that returns `n > 0`, the coarse indicator
fires (writes to standard error), and the progress field is set to the
current percentage, if and only if the guard `percentage - pt.progress > 2`
holds in `float64` arithmetic; otherwise the progress field is unchanged; and
the guard holds only if the exact difference exceeds 2. Consequently, with
`length > 0` and `total` and `progress` starting at 0, after every call of a
sequence whose byte counts fit an `int64`, progress and the current
percentage are finite values `p` and `q` with `0 ≤ p ≤ q` and `q - p ≤ 2`,
and in every such state the next call fires exactly when the new percentage
exceeds `p` by more than 2. -/
theorem passThru_coarse_indicator (cvt : F64 → ℤ) (pt : passThru) :
    (0 < (passThru.Read cvt pt).1.1 →
      (stderrTexts (passThru.Read cvt pt).2.2 ≠ [] ↔
          indicatorFires (percentage (passThru.Read cvt pt).2.1.total pt.length)
            pt.progress = true) ∧
        (passThru.Read cvt pt).2.1.progress =
          (if indicatorFires (percentage (passThru.Read cvt pt).2.1.total pt.length)
              pt.progress = true
            then percentage (passThru.Read cvt pt).2.1.total pt.length else pt.progress) ∧
        ∀ p q : ℚ, pt.progress = F64.fin p →
          percentage (passThru.Read cvt pt).2.1.total pt.length = F64.fin q →
          indicatorFires (F64.fin q) (F64.fin p) = true → 2 < q - p) ∧
      (∀ k : ℕ, pt.total = 0 → pt.progress = F64.fin 0 → 0 < pt.length →
        pt.length < 2 ^ 63 → (byteCount (readCalls cvt (k + 1) pt).1 : ℤ) < 2 ^ 63 →
        (∃ p q : ℚ, (readCalls cvt k pt).2.1.progress = F64.fin p ∧
          percentage (readCalls cvt k pt).2.1.total pt.length = F64.fin q ∧
          0 ≤ p ∧ p ≤ q ∧ q - p ≤ 2) ∧
        (0 < (passThru.Read cvt (readCalls cvt k pt).2.1).1.1 →
          ∃ p q : ℚ, (readCalls cvt k pt).2.1.progress = F64.fin p ∧
            percentage (passThru.Read cvt (readCalls cvt k pt).2.1).2.1.total pt.length
              = F64.fin q ∧
            (stderrTexts (passThru.Read cvt (readCalls cvt k pt).2.1).2.2 ≠ [] ↔
              2 < q - p))) := by
  constructor
  · intro hn
    have hs := Read_stderr cvt pt
    have hp := Read_progress cvt pt
    refine ⟨?_, ?_, ?_⟩
    · by_cases hf : indicatorFires (percentage (passThru.Read cvt pt).2.1.total pt.length)
          pt.progress = true
      · rw [if_pos ⟨hn, hf⟩] at hs
        rw [hs]
        simp [hf]
      · rw [if_neg (fun h => hf h.2)] at hs
        rw [hs]
        simp [hf]
    · by_cases hf : indicatorFires (percentage (passThru.Read cvt pt).2.1.total pt.length)
          pt.progress = true
      · rw [if_pos ⟨hn, hf⟩] at hp
        rw [hp, if_pos hf]
      · rw [if_neg (fun h => hf h.2)] at hp
        rw [hp, if_neg hf]
    · intro p q _ _ hf
      exact indicatorFires_imp hf
  · intro k ht hp hL hL1 hsum
    have hL2 : pt.length < 9223372036854775808 := by norm_num at hL1; exact hL1
    have hsum2 : (byteCount (readCalls cvt (k + 1) pt).1 : ℤ) < 9223372036854775808 := by
      norm_num at hsum; exact_mod_cast hsum
    have hsplit : byteCount (readCalls cvt (k + 1) pt).1 =
        byteCount (readCalls cvt k pt).1 + (passThru.Read cvt (readCalls cvt k pt).2.1).1.1 := by
      clear hsum hsum2 ht hp hL hL1 hL2
      induction k generalizing pt with
      | zero => simp [readCalls, byteCount]
      | succ k ih =>
        rw [readCalls_succ cvt (k + 1), byteCount_cons, ih, readCalls_succ cvt k,
          byteCount_cons]
        ring
    have hk : pt.total + (byteCount (readCalls cvt k pt).1 : ℤ) < 9223372036854775808 := by
      rw [ht]; omega
    have hinv := readCalls_inv cvt k pt hL hL2 (by rw [ht]) hk (ProgressInv_init pt ht hp)
    have htot := readCalls_total cvt k pt (by rw [ht]; norm_num) hk
    have hlen := readCalls_length cvt k pt
    obtain ⟨⟨p, hp1, hp0, hpq, hd, hg⟩, ht0⟩ := hinv
    rw [hlen] at hpq hd
    constructor
    · refine ⟨p, pctQ (readCalls cvt k pt).2.1.total pt.length, hp1, ?_, hp0, hpq, hd⟩
      exact percentage_eq_fin_pos hL hL2 ht0 (by rw [htot]; omega)
    · intro hn
      have hrt := Read_total cvt (readCalls cvt k pt).2.1
      rw [if_pos hn, wrapInt64_eq (by omega) (by rw [htot, ht]; omega)] at hrt
      have hpct : percentage (passThru.Read cvt (readCalls cvt k pt).2.1).2.1.total pt.length
          = F64.fin (pctQ (passThru.Read cvt (readCalls cvt k pt).2.1).2.1.total pt.length) :=
        percentage_eq_fin_pos hL hL2 (by rw [hrt]; omega) (by rw [hrt, htot, ht]; omega)
      refine ⟨p, _, hp1, hpct, ?_⟩
      have hs := Read_stderr cvt (readCalls cvt k pt).2.1
      rw [hlen, hpct, hp1] at hs
      have hiff := indicatorFires_iff_exact
        (t := (passThru.Read cvt (readCalls cvt k pt).2.1).2.1.total) hL
        (by rw [hrt]; omega) hp0 hg
      by_cases hf : indicatorFires
          (F64.fin (pctQ (passThru.Read cvt (readCalls cvt k pt).2.1).2.1.total pt.length))
          (F64.fin p) = true
      · rw [if_pos ⟨hn, hf⟩] at hs
        rw [hs]
        simp [hiff.mp hf]
      · rw [if_neg (fun h => hf h.2)] at hs
        rw [hs]
        simp only [ne_eq, not_true_eq_false, false_iff]
        exact fun h => hf (hiff.mpr h)

/-- Witness of C10: a reader of 100 declared bytes after reads of 1 and 1
bytes, about to read 3 more. -/
theorem passThru_coarse_indicator_witness :
    ∃ p q : ℚ, (readCalls amd64Cvt 2
        { Reader := [(1, none), (1, none), (3, none)], total := 0, length := 100,
          progress := F64.fin 0 }).2.1.progress = F64.fin p ∧
      percentage (readCalls amd64Cvt 2
        { Reader := [(1, none), (1, none), (3, none)], total := 0, length := 100,
          progress := F64.fin 0 }).2.1.total 100 = F64.fin q ∧
      0 ≤ p ∧ p ≤ q ∧ q - p ≤ 2 :=
  ((passThru_coarse_indicator amd64Cvt
    { Reader := [(1, none), (1, none), (3, none)], total := 0, length := 100,
      progress := F64.fin 0 }).2 2 rfl rfl (by decide) (by decide) (by decide!)).1

end Autoupdate
